import Mathlib

/-!
Verification of the generic search engine in `src/search.rs` of the `tiles`
repository (with frontier implementations from `src/queue.rs`).

The Rust code is shallowly embedded as executable Lean definitions:

* `Transition` mirrors the parent-linked search-tree node (`enum Transition`),
  with `g`/`index` (Rust `u32`) as `Nat` and `h` (Rust `i32`) as `Int`.
* The closed set (`HashMap<Rc<S>, Rc<Transition<S>>>`) is an association list
  with shadowing insert; `lookupSeen` returns the most recent binding, which is
  observationally the map semantics of `HashMap::insert`/`get`.
* The frontier trait `Queue<T>` is a `QueueOps` record bundling the operations
  together with their observable contract (contents up to permutation).  The
  FIFO queue is a list; the comparator-driven `binary_heap_plus::BinaryHeap`
  (an external crate) is modelled by its documented contract: `pop` returns a
  maximal element under the comparator (`selMax`).
* The driver loop of `search` is `searchAux`, consuming one unit of fuel per
  loop iteration (`none` = fuel exhausted; the Rust loop has no bound).
  `processSuccs` is the inner `for successor_state in successors` loop.
* The `Statistics` counters (Rust `i32`) are modelled as `Nat`; runs shorter
  than `2^31` iterations are assumed, as wall-clock `duration` and the console
  printing are not modelled.
* The embedding additionally records a ghost trace of closed-set insertions and
  frontier enqueues (`Event`); the trace never influences control flow.
-/

namespace Tiles

variable {S : Type} {α : Type}

/-- Mirror of `SearchConfig` in src/search.rs. -/
structure SearchConfig where
  compute_heuristic : Bool
  ehc : Bool
  best_first_successors : Bool
deriving DecidableEq, Repr

/-- `SearchConfig::default()` in src/search.rs. -/
def SearchConfig.defaultCfg : SearchConfig := ⟨true, false, false⟩

/-- `SearchConfig::blind()` in src/search.rs. -/
def SearchConfig.blind : SearchConfig := ⟨false, false, false⟩

/-- `SearchConfig::ehc()` in src/search.rs. -/
def SearchConfig.ehcConfig : SearchConfig := ⟨true, true, false⟩

/-- `SearchConfig::ehc_steepest_ascent()` in src/search.rs. -/
def SearchConfig.ehcSteepestAscent : SearchConfig := ⟨true, true, true⟩

/-- Mirror of `Statistics` in src/search.rs (counters only; `duration` is
wall-clock time and is not modelled). -/
structure Statistics where
  created : Nat
  queued : Nat
  expanded : Nat
deriving DecidableEq, Repr

/-- Mirror of `SearchResult` in src/search.rs; the `VecDeque` plan is a list
ordered from the initial state to the goal state. -/
structure SearchResult (S : Type) where
  plan : Option (List S)
  statistics : Statistics
deriving DecidableEq, Repr

/-- Mirror of `enum Transition` in src/search.rs: `Initial { state, h }` and
`Intermediate { state, parent, g, index, h }`.  The `Rc` parent pointer becomes
structural nesting (the parent tree is immutable and acyclic). -/
inductive Transition (S : Type) where
  | initial (state : S) (h : Int)
  | intermediate (state : S) (parent : Transition S) (g : Nat) (index : Nat) (h : Int)
deriving DecidableEq, Repr

/-- `Transition::state`. -/
def Transition.state : Transition S → S
  | .initial s _ => s
  | .intermediate s _ _ _ _ => s

/-- `Transition::g` (`0` for `Initial`). -/
def Transition.g : Transition S → Nat
  | .initial _ _ => 0
  | .intermediate _ _ g _ _ => g

/-- `Transition::index` (`0` for `Initial`). -/
def Transition.index : Transition S → Nat
  | .initial _ _ => 0
  | .intermediate _ _ _ i _ => i

/-- `Transition::h`. -/
def Transition.h : Transition S → Int
  | .initial _ h => h
  | .intermediate _ _ _ _ h => h

/-- `Transition::successor`: builds `Intermediate` with `g = parent.g() + 1`. -/
def Transition.successor (state : S) (parent : Transition S) (index : Nat) (h : Int) :
    Transition S :=
  .intermediate state parent (parent.g + 1) index h

/-- The closed set: state-keyed map, represented as an association list with
shadowing insert (most recent binding wins, as with `HashMap::insert`). -/
abbrev Seen (S : Type) := List (S × Transition S)

/-- Map lookup: the most recently inserted binding for the state. -/
def lookupSeen [DecidableEq S] : Seen S → S → Option (Transition S)
  | [], _ => none
  | (s, t) :: rest, x => if x = s then some t else lookupSeen rest x

/-- `seen.insert(state, transition)`: unconditionally replaces any prior
mapping (shadowing cons). -/
def insertSeen (seen : Seen S) (s : S) (t : Transition S) : Seen S :=
  (s, t) :: seen

/-- Mirror of `seen_and_better` in src/search.rs: true iff the closed set has
an entry for `state` whose `g` is `≤ g`. -/
def seen_and_better [DecidableEq S] (seen : Seen S) (state : S) (g : Nat) : Bool :=
  match lookupSeen seen state with
  | some seen_transition => decide (seen_transition.g ≤ g)
  | none => false

/-- Mirror of `extract_plan` in src/search.rs: the source walks parent
pointers pushing each state to the front of a `VecDeque`; this recursion
produces the same initial-to-goal order. -/
def extract_plan : Transition S → List S
  | .initial s _ => [s]
  | .intermediate s p _ _ _ => extract_plan p ++ [s]

/-- Ghost event: a closed-set insertion or a frontier enqueue of a transition
with the given state, depth `g` and insertion `index`.  Instrumentation only;
it does not exist in the source and never influences control flow. -/
inductive Event (S : Type) where
  | ins (state : S) (g : Nat) (index : Nat)
  | enq (state : S) (g : Nat) (index : Nat)
deriving DecidableEq, Repr

/-- Model of the `Queue<T>` trait in src/queue.rs: the frontier operations,
plus the abstraction function `toList` giving the current contents. -/
structure QueueOps (α : Type) where
  Q : Type
  empty : Q
  enqueue : α → Q → Q
  dequeue : Q → Option (α × Q)
  clear : Q → Q
  toList : Q → List α

/-- The observable contract of a frontier: contents form a multiset, enqueue
adds an element, dequeue removes the returned element, clear empties. -/
structure QueueLaws (qo : QueueOps α) : Prop where
  toList_empty : qo.toList qo.empty = []
  toList_clear : ∀ q, qo.toList (qo.clear q) = []
  toList_enqueue : ∀ a q, (qo.toList (qo.enqueue a q)).Perm (a :: qo.toList q)
  dequeue_none : ∀ q, qo.dequeue q = none ↔ qo.toList q = []
  dequeue_some : ∀ q a q', qo.dequeue q = some (a, q') →
    (qo.toList q).Perm (a :: qo.toList q')

/-- Mirror of `Fifo` in src/queue.rs: `VecDeque` with `push_back`/`pop_front`. -/
def fifoOps (α : Type) : QueueOps α where
  Q := List α
  empty := []
  enqueue a q := q ++ [a]
  dequeue q := match q with | [] => none | x :: xs => some (x, xs)
  clear _ := []
  toList q := q

/-- Extract a maximal element under the comparator, removing its first
occurrence.  `binary_heap_plus::BinaryHeap::pop` returns a greatest element
under the supplied comparator; with the engine's comparators (which are total
orders thanks to the unique insertion index) this determines `pop` exactly. -/
def selMax (cmp : α → α → Ordering) : List α → Option (α × List α)
  | [] => none
  | x :: xs =>
    match selMax cmp xs with
    | none => some (x, [])
    | some (m, rest) => if cmp x m = .lt then some (m, x :: rest) else some (x, xs)

/-- Model of `PriorityCmp` in src/queue.rs: a comparator-driven max-heap
(the external `binary_heap_plus` crate), modelled by its contract: contents
are a multiset and `pop` removes a comparator-maximal element. -/
def prioOps (cmp : α → α → Ordering) : QueueOps α where
  Q := List α
  empty := []
  enqueue a q := a :: q
  dequeue := selMax cmp
  clear _ := []
  toList q := q

/-- The state threaded through the driver loop: frontier, closed set,
statistics, the monotone insertion `index` counter, `best_h`, and the ghost
event trace. -/
structure LoopState (S : Type) (Q : Type) where
  queue : Q
  seen : Seen S
  statistics : Statistics
  index : Nat
  best_h : Int
  trace : List (Event S)

/-- The `for successor_state in successors` loop inside `search`
(src/search.rs lines 252-276): per survivor, increment `created` and `index`,
build the `Intermediate` transition, insert it into the closed set, on a
strict `h` improvement update `best_h` and (when `config.ehc`) clear the
frontier and set `skip_siblings`, then enqueue, increment `queued`, and break
when `skip_siblings`. -/
def processSuccs [DecidableEq S] (qo : QueueOps (Transition S)) (heuristic : S → Int)
    (cfg : SearchConfig) (parent : Transition S) :
    List S → LoopState S qo.Q → LoopState S qo.Q
  | [], st => st
  | s :: rest, st =>
    let stats₁ : Statistics := { st.statistics with created := st.statistics.created + 1 }
    let index' := st.index + 1
    let current_h := heuristic s
    let t := Transition.successor s parent index' current_h
    let seen' := insertSeen st.seen s t
    let improved : Bool := decide (current_h < st.best_h)
    let best' : Int := if improved then current_h else st.best_h
    let skip : Bool := improved && cfg.ehc
    let q₁ := if skip then qo.clear st.queue else st.queue
    let q₂ := qo.enqueue t q₁
    let stats₂ : Statistics := { stats₁ with queued := stats₁.queued + 1 }
    let tr' := st.trace ++ [Event.ins s t.g index', Event.enq s t.g index']
    let st' : LoopState S qo.Q := ⟨q₂, seen', stats₂, index', best', tr'⟩
    if skip then st' else processSuccs qo heuristic cfg parent rest st'

/-- Stable ascending sort of the surviving successors by heuristic value,
modelling `successors.sort_by(|a, b| heuristic(a).partial_cmp(&heuristic(b)))`
(the order among equal-`h` siblings does not affect any claim). -/
def insertByH (heuristic : S → Int) (a : S) : List S → List S
  | [] => [a]
  | b :: bs => if heuristic a ≤ heuristic b then a :: b :: bs else b :: insertByH heuristic a bs

/-- See `insertByH`. -/
def sortByH (heuristic : S → Int) : List S → List S
  | [] => []
  | a :: as => insertByH heuristic a (sortByH heuristic as)

/-- The successor list the driver iterates over when expanding `t`: the raw
successors, filtered by `!seen_and_better(s, t.g + 1)`, and (for steepest
ascent) sorted by ascending heuristic (src/search.rs lines 242-250). -/
def expandSuccs [DecidableEq S] (succs : S → List S) (heuristic : S → Int)
    (cfg : SearchConfig) (seen : Seen S) (t : Transition S) : List S :=
  let succ₀ := (succs t.state).filter (fun s => !(seen_and_better seen s (t.g + 1)))
  if cfg.compute_heuristic && cfg.best_first_successors then sortByH heuristic succ₀
  else succ₀

/-- The `while let Some(transition) = queue.dequeue()` loop of `search`
(src/search.rs lines 232-278), one unit of fuel per iteration.  `none` means
the fuel bound was reached (the Rust loop is unbounded); `some` carries the
returned `SearchResult` and the ghost event trace. -/
def searchAux [DecidableEq S] (qo : QueueOps (Transition S)) (succs : S → List S)
    (heuristic : S → Int) (goal : S → Bool) (cfg : SearchConfig) :
    Nat → LoopState S qo.Q → Option (SearchResult S × List (Event S))
  | 0, _ => none
  | fuel + 1, st =>
    match qo.dequeue st.queue with
    | none => some ({ plan := none, statistics := st.statistics }, st.trace)
    | some (t, q₂) =>
      if goal t.state then
        some ({ plan := some (extract_plan t), statistics := st.statistics }, st.trace)
      else
        let st' := processSuccs qo heuristic cfg t (expandSuccs succs heuristic cfg st.seen t)
          ⟨q₂, st.seen, ⟨st.statistics.created, st.statistics.queued,
            st.statistics.expanded + 1⟩, st.index, st.best_h, st.trace⟩
        searchAux qo succs heuristic goal cfg fuel st'

/-- Mirror of `search` in src/search.rs (lines 205-283): initialise the
statistics at `{created: 1, queued: 1, expanded: 0}`, build the `Initial`
transition, set `best_h` to the initial heuristic, insert into the closed set,
enqueue, and run the loop. -/
def search [DecidableEq S] (qo : QueueOps (Transition S)) (succs : S → List S)
    (heuristic : S → Int) (goal : S → Bool) (cfg : SearchConfig) (fuel : Nat) (initial : S) :
    Option (SearchResult S × List (Event S)) :=
  let statistics : Statistics := ⟨1, 1, 0⟩
  let initial_h := heuristic initial
  let t₀ := Transition.initial initial initial_h
  let seen := insertSeen ([] : Seen S) initial t₀
  let q := qo.enqueue t₀ qo.empty
  searchAux qo succs heuristic goal cfg fuel
    ⟨q, seen, statistics, 0, initial_h, [Event.ins initial 0 0, Event.enq initial 0 0]⟩

/-- `blind_heuristic` in src/search.rs: constantly `0`. -/
def blind_heuristic (S : Type) : S → Int := fun _ => 0

/-- Comparator on `Int` mirroring `i32::partial_cmp` (total on integers). -/
def cmpInt (a b : Int) : Ordering :=
  if a < b then .lt else if a = b then .eq else .gt

/-- Comparator on `Nat` mirroring `u32::cmp`. -/
def cmpNat (a b : Nat) : Ordering :=
  if a < b then .lt else if a = b then .eq else .gt

/-- The comparator built in `greedy_best_first_search`: reversed comparison of
`h`, then of `index` (reversed so the max-heap behaves as a min-heap). -/
def gbfsCmp (s1 s2 : Transition S) : Ordering :=
  (cmpInt s2.h s1.h).then (cmpNat s2.index s1.index)

/-- `i32::MAX`. -/
def INT32MAX : Int := 2147483647

/-- The Rust `as i32` cast of a `u32` value: reduce mod `2^32` and reinterpret
in two's complement (this cast wraps and never fails). -/
def u32ToI32 (g : Nat) : Int :=
  if g % 4294967296 < 2147483648 then ((g % 4294967296 : Nat) : Int)
  else ((g % 4294967296 : Nat) : Int) - 4294967296

/-- Mirror of `a_star_eval` in src/search.rs: `f = g + h` saturated at
`i32::MAX` via the guard `i32::MAX - h <= g as i32`. -/
def a_star_eval (t : Transition S) : Int :=
  if INT32MAX - t.h ≤ u32ToI32 t.g then INT32MAX else t.h + u32ToI32 t.g

/-- `a_star_eval` with every `i32` operation checked for overflow, mirroring
the Rust arithmetic: `i32::MAX - h` and (on the non-saturated branch) `h + g`
must stay within the signed 32-bit range; the `u32 as i32` cast wraps and
cannot fail.  `none` models an overflow panic. -/
def a_star_eval_checked (t : Transition S) : Option Int :=
  let gI := u32ToI32 t.g
  if INT32MAX - t.h < -2147483648 ∨ INT32MAX < INT32MAX - t.h then none
  else if INT32MAX - t.h ≤ gI then some INT32MAX
  else if t.h + gI < -2147483648 ∨ INT32MAX < t.h + gI then none
  else some (t.h + gI)

/-- The comparator built in `a_star_search`: reversed comparison of the
saturated `f`, then of `h`, then of `index`. -/
def aStarCmp (s1 s2 : Transition S) : Ordering :=
  (cmpInt (a_star_eval s2) (a_star_eval s1)).then
    ((cmpInt s2.h s1.h).then (cmpNat s2.index s1.index))

/-- The intended A* frontier order: ascending saturated `f`, ties broken by
ascending `h`, then by ascending insertion `index` (older entries first). -/
def aStarKeyLe (a b : Transition S) : Prop :=
  a_star_eval a < a_star_eval b ∨
    (a_star_eval a = a_star_eval b ∧
      (a.h < b.h ∨ (a.h = b.h ∧ a.index ≤ b.index)))

/-- Mirror of `breadth_first_search` in src/search.rs: FIFO frontier, blind
heuristic, blind config. -/
def breadth_first_search [DecidableEq S] (succs : S → List S) (goal : S → Bool)
    (fuel : Nat) (initial : S) : Option (SearchResult S × List (Event S)) :=
  search (fifoOps (Transition S)) succs (blind_heuristic S) goal SearchConfig.blind fuel initial

/-- Mirror of `ehc_search` in src/search.rs: FIFO frontier, EHC config. -/
def ehc_search [DecidableEq S] (succs : S → List S) (heuristic : S → Int) (goal : S → Bool)
    (fuel : Nat) (initial : S) : Option (SearchResult S × List (Event S)) :=
  search (fifoOps (Transition S)) succs heuristic goal SearchConfig.ehcConfig fuel initial

/-- Mirror of `ehc_steepest_search` in src/search.rs. -/
def ehc_steepest_search [DecidableEq S] (succs : S → List S) (heuristic : S → Int)
    (goal : S → Bool) (fuel : Nat) (initial : S) : Option (SearchResult S × List (Event S)) :=
  search (fifoOps (Transition S)) succs heuristic goal SearchConfig.ehcSteepestAscent fuel initial

/-- Mirror of `greedy_best_first_search` in src/search.rs: priority frontier
ordered by `h` then `index`. -/
def greedy_best_first_search [DecidableEq S] (succs : S → List S) (heuristic : S → Int)
    (goal : S → Bool) (fuel : Nat) (initial : S) : Option (SearchResult S × List (Event S)) :=
  search (prioOps gbfsCmp) succs heuristic goal SearchConfig.defaultCfg fuel initial

/-- Mirror of `a_star_search` in src/search.rs: priority frontier ordered by
saturated `f = g + h`, then `h`, then `index`. -/
def a_star_search [DecidableEq S] (succs : S → List S) (heuristic : S → Int)
    (goal : S → Bool) (fuel : Nat) (initial : S) : Option (SearchResult S × List (Event S)) :=
  search (prioOps aStarCmp) succs heuristic goal SearchConfig.defaultCfg fuel initial

/-- The five public strategy entry points of src/search.rs. -/
inductive Strat where
  | bfs
  | ehcPlain
  | ehcSteepest
  | gbfs
  | astar
deriving DecidableEq, Repr

/-- Dispatch to the five strategy entry points (the heuristic argument is
ignored by `breadth_first_search`, which substitutes `blind_heuristic`). -/
def runStrategy [DecidableEq S] (st : Strat) (succs : S → List S) (heuristic : S → Int)
    (goal : S → Bool) (fuel : Nat) (initial : S) : Option (SearchResult S × List (Event S)) :=
  match st with
  | .bfs => breadth_first_search succs goal fuel initial
  | .ehcPlain => ehc_search succs heuristic goal fuel initial
  | .ehcSteepest => ehc_steepest_search succs heuristic goal fuel initial
  | .gbfs => greedy_best_first_search succs heuristic goal fuel initial
  | .astar => a_star_search succs heuristic goal fuel initial

/-- The loop state after one non-goal iteration that popped `t` leaving `q₂`:
abbreviation for the driver's expansion step, used to state loop lemmas. -/
def stepState [DecidableEq S] (qo : QueueOps (Transition S)) (succs : S → List S)
    (heuristic : S → Int) (cfg : SearchConfig) (st : LoopState S qo.Q) (t : Transition S)
    (q₂ : qo.Q) : LoopState S qo.Q :=
  processSuccs qo heuristic cfg t (expandSuccs succs heuristic cfg st.seen t)
    ⟨q₂, st.seen, ⟨st.statistics.created, st.statistics.queued,
      st.statistics.expanded + 1⟩, st.index, st.best_h, st.trace⟩

/-- A transition is well-formed for initial state `s0` and successor function
`succs`: its parent chain ends at the `Initial` transition for `s0`, every
link's state is a successor of its parent's state, and `g` counts the links. -/
def WellFormed (s0 : S) (succs : S → List S) : Transition S → Prop
  | .initial s _ => s = s0
  | .intermediate s p g _ _ => s ∈ succs p.state ∧ g = p.g + 1 ∧ WellFormed s0 succs p

/-! Concrete test systems (the synthetic scalar state of spec §8 and small
variants), used to instantiate the theorems at concrete inputs. -/

/-- `successors(n) = [n+1, n+2, n+3]`: the synthetic scalar domain. -/
def succsTriple (n : Nat) : List Nat := [n + 1, n + 2, n + 3]

/-- Goal predicate `n == 5` for the synthetic scalar domain. -/
def goalFive (n : Nat) : Bool := n == 5

/-- Heuristic `max 0 (5 - n)` for the synthetic scalar domain. -/
def heurFive (n : Nat) : Int := max 0 (5 - (n : Int))

/-- A domain whose successor list contains a duplicate state. -/
def succsDup (n : Nat) : List Nat := if n = 0 then [1, 1] else []

/-- A finite goal-free line `0 → 1 → 2`. -/
def succsLine (n : Nat) : List Nat := if n < 2 then [n + 1] else []

/-- The never-satisfied goal predicate. -/
def goalNever (_ : Nat) : Bool := false

/-- A diamond with a long and a short route to state `4`: `0 → 1 → 3 → 4`
(three steps) and `0 → 2 → 4` (two steps); duplicate-free successor lists. -/
def succsDiamond (n : Nat) : List Nat :=
  if n = 0 then [1, 2] else if n = 1 then [3] else if n = 3 then [4]
  else if n = 2 then [4] else []

/-- A heuristic steering greedy best-first search down the long route first. -/
def heurDiamond (n : Nat) : Int :=
  if n = 2 then 5 else if n = 4 then 10 else 0

/-- An insert event at trace position `i` followed by an enqueue event for the
same state at a later position `j` must record a strictly smaller depth,
unless the two events belong to the same transition (same insertion index). -/
def PairOK (e1 e2 : Event S) : Prop :=
  ∀ s k a g b, e1 = Event.ins s k a → e2 = Event.enq s g b → a ≠ b → g < k

/-- `PairOK` holds of every ordered pair of trace positions. -/
def PairProp (tr : List (Event S)) : Prop :=
  ∀ (i j : Nat) (e1 e2 : Event S), i < j → tr[i]? = some e1 → tr[j]? = some e2 →
    PairOK e1 e2

/-- Every state with an insert event in the trace currently has a closed-set
entry whose depth is at most every depth ever recorded for it. -/
def SeenBound [DecidableEq S] (seen : Seen S) (tr : List (Event S)) : Prop :=
  ∀ s k a, Event.ins s k a ∈ tr → ∃ t, lookupSeen seen s = some t ∧ t.g ≤ k

/-- Number of states of `L` not yet in the closed set: first component of the
termination measure for the driver loop. -/
def unseenCount [DecidableEq S] (L : List S) (seen : Seen S) : Nat :=
  L.countP (fun s => (lookupSeen seen s).isNone)

/-- Sum over `L` of the recorded closed-set depths: second component of the
termination measure for the driver loop. -/
def seenGSum [DecidableEq S] (L : List S) (seen : Seen S) : Nat :=
  (L.map (fun s => match lookupSeen seen s with | some t => t.g | none => 0)).sum

/-- `n`-step reachability from `s0` via the successor function. -/
inductive ReachN (succs : S → List S) (s0 : S) : Nat → S → Prop where
  | zero : ReachN succs s0 0 s0
  | succ {n : Nat} {s s' : S} : ReachN succs s0 n s → s' ∈ succs s →
      ReachN succs s0 (n + 1) s'

/-- `n` is the exact shortest distance from `s0` to `s`. -/
def IsDist (succs : S → List S) (s0 : S) (s : S) (n : Nat) : Prop :=
  ReachN succs s0 n s ∧ ∀ m, ReachN succs s0 m s → n ≤ m

/-- The transitions created for the surviving successors during one blind
(BFS) expansion, in order: each receives depth `parent.g + 1`, heuristic `0`
and the next insertion index. -/
def blindChildren (parent : Transition S) : Nat → List S → List (Transition S)
  | _, [] => []
  | idx, s :: rest =>
      Transition.successor s parent (idx + 1) 0 :: blindChildren parent (idx + 1) rest

/-- The closed set after the inserts of one blind (BFS) expansion. -/
def blindSeen [DecidableEq S] (parent : Transition S) : Nat → Seen S → List S → Seen S
  | _, seen, [] => seen
  | idx, seen, s :: rest =>
      blindSeen parent (idx + 1)
        (insertSeen seen s (Transition.successor s parent (idx + 1) 0)) rest

/-- The loop invariant of breadth-first search: queue transitions are
well-formed with nondecreasing depths spanning at most two levels; every
closed-set entry records the exact shortest distance of its state; every
queued transition has a closed-set entry at its own depth; every closed-set
state either still waits in the queue or has all its successors in the closed
set; goal states in the closed set still wait in the queue; and the initial
state is in the closed set. -/
structure BFSInv [DecidableEq S] (succs : S → List S) (goal : S → Bool) (s0 : S)
    (q : List (Transition S)) (seen : Seen S) : Prop where
  wfQ : ∀ t ∈ q, WellFormed s0 succs t
  seenDist : ∀ s w, lookupSeen seen s = some w →
    WellFormed s0 succs w ∧ w.state = s ∧ IsDist succs s0 s w.g
  sorted : List.Pairwise (fun a b => a.g ≤ b.g) q
  twoLevel : ∀ a ∈ q, ∀ b ∈ q, a.g ≤ b.g + 1
  queueSeen : ∀ t ∈ q, ∃ w, lookupSeen seen t.state = some w ∧ w.g = t.g
  expandedSeen : ∀ s w, lookupSeen seen s = some w →
    (∃ t ∈ q, t.state = s) ∨ (∀ y ∈ succs s, (lookupSeen seen y).isSome = true)
  goalQueued : ∀ s w, lookupSeen seen s = some w → goal s = true → ∃ t ∈ q, t.state = s
  initSeen : (lookupSeen seen s0).isSome = true

/-! ### The frontier implementations satisfy the frontier contract -/

theorem selMax_eq_none {cmp : α → α → Ordering} {l : List α} :
    selMax cmp l = none ↔ l = [] := by
  cases l with
  | nil => simp [selMax]
  | cons x xs =>
    simp only [selMax]
    constructor
    · intro hq
      exfalso
      revert hq
      cases selMax cmp xs with
      | none => intro hq; simp at hq
      | some p =>
        rcases p with ⟨m, rest⟩
        by_cases hc : cmp x m = .lt <;> intro hq <;> simp [hc] at hq
    · intro hq; simp at hq

theorem selMax_perm {cmp : α → α → Ordering} {l : List α} {a : α} {l' : List α}
    (hq : selMax cmp l = some (a, l')) : l.Perm (a :: l') := by
  induction l generalizing a l' with
  | nil => simp [selMax] at hq
  | cons x xs ih =>
    simp only [selMax] at hq
    cases hsel : selMax cmp xs with
    | none =>
      simp only [hsel, Option.some.injEq, Prod.mk.injEq] at hq
      have hxs : xs = [] := selMax_eq_none.mp hsel
      subst hxs
      rw [← hq.1, ← hq.2]
    | some p =>
      rcases p with ⟨m, rest⟩
      simp only [hsel] at hq
      by_cases hc : cmp x m = .lt
      · simp only [if_pos hc, Option.some.injEq, Prod.mk.injEq] at hq
        have hperm := ih hsel
        rw [← hq.2]
        rw [hq.1] at hperm
        exact List.Perm.trans (hperm.cons x) (List.Perm.swap a x rest)
      · simp only [if_neg hc, Option.some.injEq, Prod.mk.injEq] at hq
        rw [← hq.1, ← hq.2]

theorem fifoLaws (α : Type) : QueueLaws (fifoOps α) where
  toList_empty := rfl
  toList_clear q := rfl
  toList_enqueue a q := List.perm_append_comm
  dequeue_none q := by cases q <;> simp [fifoOps]
  dequeue_some q a q' hq := by
    cases q with
    | nil => simp [fifoOps] at hq
    | cons x xs =>
      simp only [fifoOps, Option.some.injEq, Prod.mk.injEq] at hq
      show (x :: xs).Perm (a :: q')
      rw [hq.1, hq.2]

theorem prioLaws (cmp : α → α → Ordering) : QueueLaws (prioOps cmp) where
  toList_empty := rfl
  toList_clear q := rfl
  toList_enqueue a q := List.Perm.refl _
  dequeue_none q := selMax_eq_none
  dequeue_some q a q' hq := selMax_perm hq

/-! ### Well-formed transitions and extracted plans -/

theorem extract_plan_ne_nil (t : Transition S) : extract_plan t ≠ [] := by
  cases t with
  | initial s h => simp [extract_plan]
  | intermediate s p g i h => simp [extract_plan]

theorem extract_plan_getLast? (t : Transition S) :
    (extract_plan t).getLast? = some t.state := by
  cases t with
  | initial s h => simp [extract_plan, Transition.state]
  | intermediate s p g i h =>
    simp [extract_plan, Transition.state, List.getLast?_append]

theorem extract_plan_head? {s0 : S} {succs : S → List S} (t : Transition S)
    (hwf : WellFormed s0 succs t) : (extract_plan t).head? = some s0 := by
  induction t with
  | initial s h => simp [WellFormed] at hwf; simp [extract_plan, hwf]
  | intermediate s p g i h ih =>
    obtain ⟨-, -, hp⟩ := hwf
    have := ih hp
    rw [extract_plan, List.head?_append, this]
    rfl

theorem extract_plan_chain {s0 : S} {succs : S → List S} (t : Transition S)
    (hwf : WellFormed s0 succs t) :
    List.Chain' (fun a b => b ∈ succs a) (extract_plan t) := by
  induction t with
  | initial s h => simp [extract_plan]
  | intermediate s p g i h ih =>
    obtain ⟨hs, -, hp⟩ := hwf
    rw [extract_plan]
    rw [List.chain'_append]
    refine ⟨ih hp, List.chain'_singleton _, ?_⟩
    intro x hx y hy
    rw [extract_plan_getLast? p] at hx
    simp only [Option.mem_def, Option.some.injEq] at hx hy
    simp only [List.head?_cons, Option.some.injEq] at hy
    rw [← hx, ← hy]
    exact hs

theorem extract_plan_length {s0 : S} {succs : S → List S} (t : Transition S)
    (hwf : WellFormed s0 succs t) : (extract_plan t).length = t.g + 1 := by
  induction t with
  | initial s h => simp [extract_plan, Transition.g]
  | intermediate s p g i h ih =>
    obtain ⟨-, hg, hp⟩ := hwf
    simp [extract_plan, ih hp, Transition.g, hg]

/-! ### Frontier contract helpers -/

theorem QueueLaws.mem_enqueue {qo : QueueOps α} (hl : QueueLaws qo) (a x : α) (q : qo.Q) :
    x ∈ qo.toList (qo.enqueue a q) ↔ x = a ∨ x ∈ qo.toList q := by
  rw [(hl.toList_enqueue a q).mem_iff]
  simp

theorem QueueLaws.length_enqueue {qo : QueueOps α} (hl : QueueLaws qo) (a : α) (q : qo.Q) :
    (qo.toList (qo.enqueue a q)).length = (qo.toList q).length + 1 := by
  rw [(hl.toList_enqueue a q).length_eq]
  rfl

theorem QueueLaws.mem_of_dequeue {qo : QueueOps α} (hl : QueueLaws qo) {q q' : qo.Q} {a : α}
    (hd : qo.dequeue q = some (a, q')) : a ∈ qo.toList q := by
  rw [(hl.dequeue_some q a q' hd).mem_iff]
  simp

theorem QueueLaws.mem_of_dequeue_rest {qo : QueueOps α} (hl : QueueLaws qo) {q q' : qo.Q}
    {a x : α} (hd : qo.dequeue q = some (a, q')) (hx : x ∈ qo.toList q') :
    x ∈ qo.toList q := by
  rw [(hl.dequeue_some q a q' hd).mem_iff]
  simp [hx]

theorem QueueLaws.length_dequeue {qo : QueueOps α} (hl : QueueLaws qo) {q q' : qo.Q} {a : α}
    (hd : qo.dequeue q = some (a, q')) :
    (qo.toList q).length = (qo.toList q').length + 1 := by
  rw [(hl.dequeue_some q a q' hd).length_eq]
  rfl

theorem QueueLaws.dequeue_of_singleton {qo : QueueOps α} (hl : QueueLaws qo) {q : qo.Q}
    {a : α} (hq : qo.toList q = [a]) :
    ∃ q', qo.dequeue q = some (a, q') ∧ qo.toList q' = [] := by
  cases hd : qo.dequeue q with
  | none =>
    rw [hl.dequeue_none q] at hd
    rw [hd] at hq
    exact absurd hq (by simp)
  | some p =>
    rcases p with ⟨b, q'⟩
    have hperm := hl.dequeue_some q b q' hd
    rw [hq] at hperm
    have := List.perm_singleton.mp hperm.symm
    simp only [List.cons.injEq] at this
    exact ⟨q', by rw [this.1], this.2⟩


/-! ### Unfolding lemmas for the successor loop -/

theorem Transition.g_successor (s : S) (p : Transition S) (i : Nat) (hv : Int) :
    (Transition.successor s p i hv).g = p.g + 1 := rfl

theorem Transition.state_successor (s : S) (p : Transition S) (i : Nat) (hv : Int) :
    (Transition.successor s p i hv).state = s := rfl

theorem processSuccs_nil [DecidableEq S] (qo : QueueOps (Transition S)) (heuristic : S → Int)
    (cfg : SearchConfig) (parent : Transition S) (st : LoopState S qo.Q) :
    processSuccs qo heuristic cfg parent [] st = st := rfl

theorem processSuccs_cons_skip [DecidableEq S] (qo : QueueOps (Transition S))
    (heuristic : S → Int) (cfg : SearchConfig) (parent : Transition S) (s : S) (rest : List S)
    (st : LoopState S qo.Q) (himp : heuristic s < st.best_h) (hehc : cfg.ehc = true) :
    processSuccs qo heuristic cfg parent (s :: rest) st =
      { queue := qo.enqueue (Transition.successor s parent (st.index + 1) (heuristic s))
          (qo.clear st.queue),
        seen := insertSeen st.seen s
          (Transition.successor s parent (st.index + 1) (heuristic s)),
        statistics := ⟨st.statistics.created + 1, st.statistics.queued + 1,
          st.statistics.expanded⟩,
        index := st.index + 1,
        best_h := heuristic s,
        trace := st.trace ++ [Event.ins s (parent.g + 1) (st.index + 1),
          Event.enq s (parent.g + 1) (st.index + 1)] } := by
  simp only [processSuccs]
  rw [decide_eq_true himp, hehc]
  simp [Transition.successor, Transition.g]

theorem processSuccs_cons_noskip [DecidableEq S] (qo : QueueOps (Transition S))
    (heuristic : S → Int) (cfg : SearchConfig) (parent : Transition S) (s : S) (rest : List S)
    (st : LoopState S qo.Q) (hns : (decide (heuristic s < st.best_h) && cfg.ehc) = false) :
    processSuccs qo heuristic cfg parent (s :: rest) st =
      processSuccs qo heuristic cfg parent rest
        { queue := qo.enqueue (Transition.successor s parent (st.index + 1) (heuristic s))
            st.queue,
          seen := insertSeen st.seen s
            (Transition.successor s parent (st.index + 1) (heuristic s)),
          statistics := ⟨st.statistics.created + 1, st.statistics.queued + 1,
            st.statistics.expanded⟩,
          index := st.index + 1,
          best_h := if heuristic s < st.best_h then heuristic s else st.best_h,
          trace := st.trace ++ [Event.ins s (parent.g + 1) (st.index + 1),
            Event.enq s (parent.g + 1) (st.index + 1)] } := by
  simp only [processSuccs]
  rw [hns]
  simp [Transition.successor, Transition.g]

/-! ### Sorting the successors -/

theorem insertByH_perm (heuristic : S → Int) (a : S) (l : List S) :
    (insertByH heuristic a l).Perm (a :: l) := by
  induction l with
  | nil => simp [insertByH]
  | cons b bs ih =>
    rw [insertByH]
    by_cases hc : heuristic a ≤ heuristic b
    · rw [if_pos hc]
    · rw [if_neg hc]
      exact List.Perm.trans (ih.cons b) (List.Perm.swap a b bs)

theorem sortByH_perm (heuristic : S → Int) (l : List S) :
    (sortByH heuristic l).Perm l := by
  induction l with
  | nil => simp [sortByH]
  | cons a as ih =>
    rw [sortByH]
    exact List.Perm.trans (insertByH_perm heuristic a (sortByH heuristic as)) (ih.cons a)

theorem mem_sortByH {heuristic : S → Int} {l : List S} {x : S} :
    x ∈ sortByH heuristic l ↔ x ∈ l :=
  (sortByH_perm heuristic l).mem_iff

theorem mem_expandSuccs [DecidableEq S] {succs : S → List S} {heuristic : S → Int}
    {cfg : SearchConfig} {seen : Seen S} {t : Transition S} {x : S} :
    x ∈ expandSuccs succs heuristic cfg seen t ↔
      x ∈ succs t.state ∧ seen_and_better seen x (t.g + 1) = false := by
  rw [expandSuccs]
  by_cases hbf : (cfg.compute_heuristic && cfg.best_first_successors) = true
  · rw [if_pos hbf, mem_sortByH, List.mem_filter]
    simp
  · rw [if_neg hbf, List.mem_filter]
    simp

/-! ### Contents and statistics through the successor loop -/

theorem processSuccs_queue_mem [DecidableEq S] {qo : QueueOps (Transition S)}
    (hl : QueueLaws qo) (heuristic : S → Int) (cfg : SearchConfig) (parent : Transition S)
    (l : List S) (st : LoopState S qo.Q) :
    ∀ x ∈ qo.toList (processSuccs qo heuristic cfg parent l st).queue,
      x ∈ qo.toList st.queue ∨
        ∃ s ∈ l, ∃ i, x = Transition.successor s parent i (heuristic s) := by
  induction l generalizing st with
  | nil =>
    intro x hx
    rw [processSuccs_nil] at hx
    exact Or.inl hx
  | cons s rest ih =>
    intro x hx
    by_cases hskip : (decide (heuristic s < st.best_h) && cfg.ehc) = true
    · have himp : heuristic s < st.best_h :=
        of_decide_eq_true ((Bool.and_eq_true _ _).mp hskip).1
      have hehc : cfg.ehc = true := ((Bool.and_eq_true _ _).mp hskip).2
      rw [processSuccs_cons_skip qo heuristic cfg parent s rest st himp hehc] at hx
      rcases (hl.mem_enqueue _ x _).mp hx with hx | hx
      · exact Or.inr ⟨s, List.mem_cons_self s rest, st.index + 1, hx⟩
      · rw [hl.toList_clear] at hx
        simp at hx
    · rw [Bool.not_eq_true] at hskip
      rw [processSuccs_cons_noskip qo heuristic cfg parent s rest st hskip] at hx
      rcases ih _ x hx with hx | hx
      · rcases (hl.mem_enqueue _ x _).mp hx with hx | hx
        · exact Or.inr ⟨s, List.mem_cons_self s rest, st.index + 1, hx⟩
        · exact Or.inl hx
      · rcases hx with ⟨s', hs', i, hi⟩
        exact Or.inr ⟨s', List.mem_cons_of_mem s hs', i, hi⟩

theorem processSuccs_stats [DecidableEq S] {qo : QueueOps (Transition S)}
    (hl : QueueLaws qo) (heuristic : S → Int) (cfg : SearchConfig) (parent : Transition S)
    (l : List S) (st : LoopState S qo.Q) :
    ∃ k, (processSuccs qo heuristic cfg parent l st).statistics.created =
          st.statistics.created + k ∧
        (processSuccs qo heuristic cfg parent l st).statistics.queued =
          st.statistics.queued + k ∧
        (processSuccs qo heuristic cfg parent l st).statistics.expanded =
          st.statistics.expanded ∧
        (qo.toList (processSuccs qo heuristic cfg parent l st).queue).length ≤
          (qo.toList st.queue).length + k := by
  induction l generalizing st with
  | nil =>
    rw [processSuccs_nil]
    exact ⟨0, rfl, rfl, rfl, Nat.le_refl _⟩
  | cons s rest ih =>
    by_cases hskip : (decide (heuristic s < st.best_h) && cfg.ehc) = true
    · have himp : heuristic s < st.best_h :=
        of_decide_eq_true ((Bool.and_eq_true _ _).mp hskip).1
      have hehc : cfg.ehc = true := ((Bool.and_eq_true _ _).mp hskip).2
      rw [processSuccs_cons_skip qo heuristic cfg parent s rest st himp hehc]
      refine ⟨1, rfl, rfl, rfl, ?_⟩
      rw [hl.length_enqueue, hl.toList_clear]
      simp
    · rw [Bool.not_eq_true] at hskip
      rw [processSuccs_cons_noskip qo heuristic cfg parent s rest st hskip]
      obtain ⟨k, hc, hq, he, hql⟩ := ih _
      refine ⟨k + 1, hc.trans ?_, hq.trans ?_, he.trans (by rfl), le_trans hql ?_⟩
      · show st.statistics.created + 1 + k = st.statistics.created + (k + 1)
        omega
      · show st.statistics.queued + 1 + k = st.statistics.queued + (k + 1)
        omega
      · show (qo.toList (qo.enqueue
            (Transition.successor s parent (st.index + 1) (heuristic s)) st.queue)).length + k ≤
          (qo.toList st.queue).length + (k + 1)
        rw [hl.length_enqueue]
        omega

/-! ### Generic driver-loop lemmas -/

theorem searchAux_zero [DecidableEq S] (qo : QueueOps (Transition S)) (succs : S → List S)
    (heuristic : S → Int) (goal : S → Bool) (cfg : SearchConfig) (st : LoopState S qo.Q) :
    searchAux qo succs heuristic goal cfg 0 st = none := rfl

theorem searchAux_dequeue_none [DecidableEq S] (qo : QueueOps (Transition S))
    (succs : S → List S) (heuristic : S → Int) (goal : S → Bool) (cfg : SearchConfig)
    (n : Nat) (st : LoopState S qo.Q) (hd : qo.dequeue st.queue = none) :
    searchAux qo succs heuristic goal cfg (n + 1) st =
      some ({ plan := none, statistics := st.statistics }, st.trace) := by
  rw [searchAux, hd]

theorem searchAux_dequeue_goal [DecidableEq S] (qo : QueueOps (Transition S))
    (succs : S → List S) (heuristic : S → Int) (goal : S → Bool) (cfg : SearchConfig)
    (n : Nat) (st : LoopState S qo.Q) (t : Transition S) (q₂ : qo.Q)
    (hd : qo.dequeue st.queue = some (t, q₂)) (hg : goal t.state = true) :
    searchAux qo succs heuristic goal cfg (n + 1) st =
      some ({ plan := some (extract_plan t), statistics := st.statistics }, st.trace) := by
  rw [searchAux, hd]
  simp only [hg, if_true]

theorem searchAux_dequeue_expand [DecidableEq S] (qo : QueueOps (Transition S))
    (succs : S → List S) (heuristic : S → Int) (goal : S → Bool) (cfg : SearchConfig)
    (n : Nat) (st : LoopState S qo.Q) (t : Transition S) (q₂ : qo.Q)
    (hd : qo.dequeue st.queue = some (t, q₂)) (hg : goal t.state = false) :
    searchAux qo succs heuristic goal cfg (n + 1) st =
      searchAux qo succs heuristic goal cfg n (stepState qo succs heuristic cfg st t q₂) := by
  rw [searchAux, hd]
  simp only [hg, Bool.false_eq_true, if_false]
  rfl

theorem searchAux_plan [DecidableEq S] {qo : QueueOps (Transition S)} (hl : QueueLaws qo)
    (succs : S → List S) (heuristic : S → Int) (goal : S → Bool) (cfg : SearchConfig)
    (s0 : S) :
    ∀ (fuel : Nat) (st : LoopState S qo.Q) (r : SearchResult S) (tr : List (Event S))
      (p : List S),
      searchAux qo succs heuristic goal cfg fuel st = some (r, tr) →
      (∀ t ∈ qo.toList st.queue, WellFormed s0 succs t) →
      r.plan = some p →
      p.head? = some s0 ∧ (∃ z, p.getLast? = some z ∧ goal z = true) ∧
        List.Chain' (fun a b => b ∈ succs a) p := by
  intro fuel
  induction fuel with
  | zero => intro st r tr p hres; simp [searchAux_zero] at hres
  | succ n ih =>
    intro st r tr p hres hinv hplan
    cases hd : qo.dequeue st.queue with
    | none =>
      rw [searchAux_dequeue_none qo succs heuristic goal cfg n st hd] at hres
      simp only [Option.some.injEq, Prod.mk.injEq] at hres
      rw [← hres.1] at hplan
      simp at hplan
    | some pr =>
      rcases pr with ⟨t, q₂⟩
      by_cases hg : goal t.state = true
      · rw [searchAux_dequeue_goal qo succs heuristic goal cfg n st t q₂ hd hg] at hres
        simp only [Option.some.injEq, Prod.mk.injEq] at hres
        rw [← hres.1] at hplan
        simp only [Option.some.injEq] at hplan
        have hwf : WellFormed s0 succs t := hinv t (hl.mem_of_dequeue hd)
        subst hplan
        exact ⟨extract_plan_head? t hwf, ⟨t.state, extract_plan_getLast? t, hg⟩,
          extract_plan_chain t hwf⟩
      · rw [Bool.not_eq_true] at hg
        rw [searchAux_dequeue_expand qo succs heuristic goal cfg n st t q₂ hd hg] at hres
        refine ih _ r tr p hres ?_ hplan
        intro x hx
        rcases processSuccs_queue_mem hl heuristic cfg t _ _ x hx with hx | hx
        · exact hinv x (hl.mem_of_dequeue_rest hd hx)
        · rcases hx with ⟨s', hs', i, hi⟩
          have hs'' : s' ∈ succs t.state := (mem_expandSuccs.mp hs').1
          rw [hi]
          exact ⟨hs'', rfl, hinv t (hl.mem_of_dequeue hd)⟩

theorem searchAux_statsInv [DecidableEq S] {qo : QueueOps (Transition S)} (hl : QueueLaws qo)
    (succs : S → List S) (heuristic : S → Int) (goal : S → Bool) (cfg : SearchConfig) :
    ∀ (fuel : Nat) (st : LoopState S qo.Q) (r : SearchResult S) (tr : List (Event S)),
      searchAux qo succs heuristic goal cfg fuel st = some (r, tr) →
      st.statistics.created = st.statistics.queued →
      st.statistics.expanded + (qo.toList st.queue).length ≤ st.statistics.queued →
      r.statistics.created = r.statistics.queued ∧
        r.statistics.expanded ≤ r.statistics.queued := by
  intro fuel
  induction fuel with
  | zero => intro st r tr hres; simp [searchAux_zero] at hres
  | succ n ih =>
    intro st r tr hres hcq hel
    cases hd : qo.dequeue st.queue with
    | none =>
      rw [searchAux_dequeue_none qo succs heuristic goal cfg n st hd] at hres
      simp only [Option.some.injEq, Prod.mk.injEq] at hres
      rw [← hres.1]
      refine ⟨hcq, ?_⟩
      show st.statistics.expanded ≤ st.statistics.queued
      omega
    | some pr =>
      rcases pr with ⟨t, q₂⟩
      by_cases hg : goal t.state = true
      · rw [searchAux_dequeue_goal qo succs heuristic goal cfg n st t q₂ hd hg] at hres
        simp only [Option.some.injEq, Prod.mk.injEq] at hres
        rw [← hres.1]
        refine ⟨hcq, ?_⟩
        show st.statistics.expanded ≤ st.statistics.queued
        omega
      · rw [Bool.not_eq_true] at hg
        rw [searchAux_dequeue_expand qo succs heuristic goal cfg n st t q₂ hd hg] at hres
        have hlen := hl.length_dequeue hd
        obtain ⟨k, hc, hq, he, hql⟩ := processSuccs_stats hl heuristic cfg t
          (expandSuccs succs heuristic cfg st.seen t)
          ⟨q₂, st.seen, ⟨st.statistics.created, st.statistics.queued,
            st.statistics.expanded + 1⟩, st.index, st.best_h, st.trace⟩
        have hc' : (stepState qo succs heuristic cfg st t q₂).statistics.created =
            st.statistics.created + k := hc
        have hq' : (stepState qo succs heuristic cfg st t q₂).statistics.queued =
            st.statistics.queued + k := hq
        have he' : (stepState qo succs heuristic cfg st t q₂).statistics.expanded =
            st.statistics.expanded + 1 := he
        have hl' : (qo.toList (stepState qo succs heuristic cfg st t q₂).queue).length ≤
            (qo.toList q₂).length + k := hql
        refine ih _ r tr hres ?_ ?_
        · rw [hc', hq', hcq]
        · rw [he', hq']
          omega

theorem searchAux_stats_mono [DecidableEq S] {qo : QueueOps (Transition S)}
    (hl : QueueLaws qo) (succs : S → List S) (heuristic : S → Int) (goal : S → Bool)
    (cfg : SearchConfig) :
    ∀ (fuel : Nat) (st : LoopState S qo.Q) (r : SearchResult S) (tr : List (Event S)),
      searchAux qo succs heuristic goal cfg fuel st = some (r, tr) →
      st.statistics.created ≤ r.statistics.created ∧
        st.statistics.queued ≤ r.statistics.queued ∧
        st.statistics.expanded ≤ r.statistics.expanded := by
  intro fuel
  induction fuel with
  | zero => intro st r tr hres; simp [searchAux_zero] at hres
  | succ n ih =>
    intro st r tr hres
    cases hd : qo.dequeue st.queue with
    | none =>
      rw [searchAux_dequeue_none qo succs heuristic goal cfg n st hd] at hres
      simp only [Option.some.injEq, Prod.mk.injEq] at hres
      rw [← hres.1]
      exact ⟨Nat.le_refl _, Nat.le_refl _, Nat.le_refl _⟩
    | some pr =>
      rcases pr with ⟨t, q₂⟩
      by_cases hg : goal t.state = true
      · rw [searchAux_dequeue_goal qo succs heuristic goal cfg n st t q₂ hd hg] at hres
        simp only [Option.some.injEq, Prod.mk.injEq] at hres
        rw [← hres.1]
        exact ⟨Nat.le_refl _, Nat.le_refl _, Nat.le_refl _⟩
      · rw [Bool.not_eq_true] at hg
        rw [searchAux_dequeue_expand qo succs heuristic goal cfg n st t q₂ hd hg] at hres
        have hrec := ih _ r tr hres
        obtain ⟨k, hc, hq, he, -⟩ := processSuccs_stats hl heuristic cfg t
          (expandSuccs succs heuristic cfg st.seen t)
          ⟨q₂, st.seen, ⟨st.statistics.created, st.statistics.queued,
            st.statistics.expanded + 1⟩, st.index, st.best_h, st.trace⟩
        have hc' : (stepState qo succs heuristic cfg st t q₂).statistics.created =
            st.statistics.created + k := hc
        have hq' : (stepState qo succs heuristic cfg st t q₂).statistics.queued =
            st.statistics.queued + k := hq
        have he' : (stepState qo succs heuristic cfg st t q₂).statistics.expanded =
            st.statistics.expanded + 1 := he
        rw [hc', hq', he'] at hrec
        omega

/-! ### Search-level wrappers -/

theorem search_eq [DecidableEq S] (qo : QueueOps (Transition S)) (succs : S → List S)
    (heuristic : S → Int) (goal : S → Bool) (cfg : SearchConfig) (fuel : Nat) (s0 : S) :
    search qo succs heuristic goal cfg fuel s0 =
      searchAux qo succs heuristic goal cfg fuel
        ⟨qo.enqueue (Transition.initial s0 (heuristic s0)) qo.empty,
          insertSeen [] s0 (Transition.initial s0 (heuristic s0)),
          ⟨1, 1, 0⟩, 0, heuristic s0, [Event.ins s0 0 0, Event.enq s0 0 0]⟩ := rfl

theorem QueueLaws.toList_init {qo : QueueOps α} (hl : QueueLaws qo) (a : α) :
    qo.toList (qo.enqueue a qo.empty) = [a] := by
  have h := hl.toList_enqueue a qo.empty
  rw [hl.toList_empty] at h
  exact List.perm_singleton.mp h

theorem search_goal_at_start [DecidableEq S] {qo : QueueOps (Transition S)}
    (hl : QueueLaws qo) (succs : S → List S) (heuristic : S → Int) (goal : S → Bool)
    (cfg : SearchConfig) (fuel : Nat) (s0 : S) (hg : goal s0 = true) (hf : 1 ≤ fuel) :
    search qo succs heuristic goal cfg fuel s0 =
      some ({ plan := some [s0], statistics := ⟨1, 1, 0⟩ },
        [Event.ins s0 0 0, Event.enq s0 0 0]) := by
  obtain ⟨m, rfl⟩ : ∃ m, fuel = m + 1 := ⟨fuel - 1, by omega⟩
  rw [search_eq]
  obtain ⟨q', hdq, -⟩ :=
    hl.dequeue_of_singleton (hl.toList_init (Transition.initial s0 (heuristic s0)))
  rw [searchAux_dequeue_goal qo succs heuristic goal cfg m _
    (Transition.initial s0 (heuristic s0)) q' hdq hg]
  rfl

theorem search_plan_valid [DecidableEq S] {qo : QueueOps (Transition S)} (hl : QueueLaws qo)
    (succs : S → List S) (heuristic : S → Int) (goal : S → Bool) (cfg : SearchConfig)
    (fuel : Nat) (s0 : S) (r : SearchResult S) (tr : List (Event S)) (p : List S)
    (hres : search qo succs heuristic goal cfg fuel s0 = some (r, tr))
    (hplan : r.plan = some p) :
    p.head? = some s0 ∧ (∃ z, p.getLast? = some z ∧ goal z = true) ∧
      List.Chain' (fun a b => b ∈ succs a) p := by
  rw [search_eq] at hres
  refine searchAux_plan hl succs heuristic goal cfg s0 fuel _ r tr p hres ?_ hplan
  intro t ht
  have ht' : t ∈ [Transition.initial s0 (heuristic s0)] := by
    rw [← hl.toList_init (Transition.initial s0 (heuristic s0))]
    exact ht
  simp only [List.mem_singleton] at ht'
  rw [ht']
  show s0 = s0
  rfl

theorem search_stats_ok [DecidableEq S] {qo : QueueOps (Transition S)} (hl : QueueLaws qo)
    (succs : S → List S) (heuristic : S → Int) (goal : S → Bool) (cfg : SearchConfig)
    (fuel : Nat) (s0 : S) (r : SearchResult S) (tr : List (Event S))
    (hres : search qo succs heuristic goal cfg fuel s0 = some (r, tr)) :
    r.statistics.created = r.statistics.queued ∧
      r.statistics.expanded ≤ r.statistics.queued := by
  rw [search_eq] at hres
  refine searchAux_statsInv hl succs heuristic goal cfg fuel _ r tr hres rfl ?_
  show 0 + (qo.toList (qo.enqueue (Transition.initial s0 (heuristic s0)) qo.empty)).length ≤ 1
  rw [hl.toList_init]
  simp

/-! ### The claims -/

/-- C5: `seen_and_better(state, candidate_g)` returns true if and only if the
closed set contains an entry for that state whose recorded `g` is less than or
equal to `candidate_g` (src/search.rs lines 286-291). -/
theorem spec_C5_seen_and_better [DecidableEq S] (seen : Seen S) (s : S) (g : Nat) :
    seen_and_better seen s g = true ↔
      ∃ t, lookupSeen seen s = some t ∧ t.g ≤ g := by
  rw [seen_and_better]
  cases hlk : lookupSeen seen s with
  | none => simp
  | some t => simp

/-- C7: on an initial state that already satisfies the goal, every one of the
five strategy entry points returns the plan `[s0]` (length 1) with
`statistics.expanded = 0` (and `created = queued = 1`), given at least one
loop iteration's worth of fuel. -/
theorem spec_C7_goal_at_start [DecidableEq S] (strat : Strat) (succs : S → List S)
    (heuristic : S → Int) (goal : S → Bool) (fuel : Nat) (s0 : S)
    (hg : goal s0 = true) (hf : 1 ≤ fuel) :
    runStrategy strat succs heuristic goal fuel s0 =
      some ({ plan := some [s0], statistics := ⟨1, 1, 0⟩ },
        [Event.ins s0 0 0, Event.enq s0 0 0]) := by
  cases strat with
  | bfs =>
    exact search_goal_at_start (fifoLaws (Transition S)) succs (blind_heuristic S) goal
      SearchConfig.blind fuel s0 hg hf
  | ehcPlain =>
    exact search_goal_at_start (fifoLaws (Transition S)) succs heuristic goal
      SearchConfig.ehcConfig fuel s0 hg hf
  | ehcSteepest =>
    exact search_goal_at_start (fifoLaws (Transition S)) succs heuristic goal
      SearchConfig.ehcSteepestAscent fuel s0 hg hf
  | gbfs =>
    exact search_goal_at_start (prioLaws gbfsCmp) succs heuristic goal
      SearchConfig.defaultCfg fuel s0 hg hf
  | astar =>
    exact search_goal_at_start (prioLaws aStarCmp) succs heuristic goal
      SearchConfig.defaultCfg fuel s0 hg hf

theorem spec_C7_witness :
    goalFive 5 = true ∧ 1 ≤ 3 ∧
      runStrategy Strat.astar succsTriple heurFive goalFive 3 5 =
        some ({ plan := some [5], statistics := ⟨1, 1, 0⟩ },
          [Event.ins 5 0 0, Event.enq 5 0 0]) :=
  ⟨by decide, by decide,
    spec_C7_goal_at_start Strat.astar succsTriple heurFive goalFive 3 5 (by decide)
      (by decide)⟩

/-- C1: every plan returned by any of the five strategy entry points starts at
the initial state, ends in a state satisfying the goal predicate, and each
consecutive pair of plan states is linked by the successor function. -/
theorem spec_C1_plans_valid [DecidableEq S] (strat : Strat) (succs : S → List S)
    (heuristic : S → Int) (goal : S → Bool) (fuel : Nat) (s0 : S) (r : SearchResult S)
    (tr : List (Event S)) (p : List S)
    (hres : runStrategy strat succs heuristic goal fuel s0 = some (r, tr))
    (hplan : r.plan = some p) :
    p.head? = some s0 ∧ (∃ z, p.getLast? = some z ∧ goal z = true) ∧
      List.Chain' (fun a b => b ∈ succs a) p := by
  cases strat with
  | bfs =>
    exact search_plan_valid (fifoLaws (Transition S)) succs (blind_heuristic S) goal
      SearchConfig.blind fuel s0 r tr p hres hplan
  | ehcPlain =>
    exact search_plan_valid (fifoLaws (Transition S)) succs heuristic goal
      SearchConfig.ehcConfig fuel s0 r tr p hres hplan
  | ehcSteepest =>
    exact search_plan_valid (fifoLaws (Transition S)) succs heuristic goal
      SearchConfig.ehcSteepestAscent fuel s0 r tr p hres hplan
  | gbfs =>
    exact search_plan_valid (prioLaws gbfsCmp) succs heuristic goal
      SearchConfig.defaultCfg fuel s0 r tr p hres hplan
  | astar =>
    exact search_plan_valid (prioLaws aStarCmp) succs heuristic goal
      SearchConfig.defaultCfg fuel s0 r tr p hres hplan

theorem spec_C1_plans_valid_witness :
    [0, 2, 5].head? = some 0 ∧
      (∃ z, [0, 2, 5].getLast? = some z ∧ goalFive z = true) ∧
      List.Chain' (fun a b => b ∈ succsTriple a) [0, 2, 5] := by
  refine spec_C1_plans_valid Strat.bfs succsTriple heurFive goalFive 10 0 ?r ?tr [0, 2, 5]
    ?hres ?hplan
  case r => exact ({ plan := some [0, 2, 5], statistics := ⟨8, 8, 5⟩ } : SearchResult Nat)
  case tr => exact (breadth_first_search succsTriple goalFive 10 0).elim [] Prod.snd
  case hres => decide
  case hplan => decide

/-- C9: in every returned `SearchResult`, `queued ≤ created` and
`expanded ≤ queued`; moreover the three counters are monotone non-decreasing
over the run: from any intermediate loop state reached during the search, the
final counters are at least the current ones. -/
theorem spec_C9_stats_inequalities :
    (∀ (S : Type) [DecidableEq S] (strat : Strat) (succs : S → List S)
      (heuristic : S → Int) (goal : S → Bool) (fuel : Nat) (s0 : S) (r : SearchResult S)
      (tr : List (Event S)),
      runStrategy strat succs heuristic goal fuel s0 = some (r, tr) →
      r.statistics.queued ≤ r.statistics.created ∧
        r.statistics.expanded ≤ r.statistics.queued) ∧
    (∀ (S : Type) [DecidableEq S] (qo : QueueOps (Transition S)), QueueLaws qo →
      ∀ (succs : S → List S) (heuristic : S → Int) (goal : S → Bool) (cfg : SearchConfig)
        (fuel : Nat) (st : LoopState S qo.Q) (r : SearchResult S) (tr : List (Event S)),
      searchAux qo succs heuristic goal cfg fuel st = some (r, tr) →
      st.statistics.created ≤ r.statistics.created ∧
        st.statistics.queued ≤ r.statistics.queued ∧
        st.statistics.expanded ≤ r.statistics.expanded) := by
  constructor
  · intro S _ strat succs heuristic goal fuel s0 r tr hres
    have hok : r.statistics.created = r.statistics.queued ∧
        r.statistics.expanded ≤ r.statistics.queued := by
      cases strat with
      | bfs =>
        exact search_stats_ok (fifoLaws (Transition S)) succs (blind_heuristic S)
          goal SearchConfig.blind fuel s0 r tr hres
      | ehcPlain =>
        exact search_stats_ok (fifoLaws (Transition S)) succs heuristic goal
          SearchConfig.ehcConfig fuel s0 r tr hres
      | ehcSteepest =>
        exact search_stats_ok (fifoLaws (Transition S)) succs heuristic goal
          SearchConfig.ehcSteepestAscent fuel s0 r tr hres
      | gbfs =>
        exact search_stats_ok (prioLaws gbfsCmp) succs heuristic goal
          SearchConfig.defaultCfg fuel s0 r tr hres
      | astar =>
        exact search_stats_ok (prioLaws aStarCmp) succs heuristic goal
          SearchConfig.defaultCfg fuel s0 r tr hres
    exact ⟨le_of_eq hok.1.symm, hok.2⟩
  · intro S _ qo hl succs heuristic goal cfg fuel st r tr hres
    exact searchAux_stats_mono hl succs heuristic goal cfg fuel st r tr hres

theorem spec_C9_stats_inequalities_witness :
    (8 : Nat) ≤ 8 ∧ (5 : Nat) ≤ 8 :=
  spec_C9_stats_inequalities.1 Nat Strat.bfs succsTriple heurFive goalFive 10 0
    { plan := some [0, 2, 5], statistics := ⟨8, 8, 5⟩ }
    ((breadth_first_search succsTriple goalFive 10 0).elim [] Prod.snd) (by decide)

/-- C10: in every returned `SearchResult`, `created` equals `queued` exactly:
both start at 1 for the initial transition and are incremented together once
per successor transition actually constructed (src/search.rs lines 214,
252-271). -/
theorem spec_C10_created_eq_queued [DecidableEq S] (strat : Strat) (succs : S → List S)
    (heuristic : S → Int) (goal : S → Bool) (fuel : Nat) (s0 : S) (r : SearchResult S)
    (tr : List (Event S))
    (hres : runStrategy strat succs heuristic goal fuel s0 = some (r, tr)) :
    r.statistics.created = r.statistics.queued := by
  cases strat with
  | bfs =>
    exact (search_stats_ok (fifoLaws (Transition S)) succs (blind_heuristic S) goal
      SearchConfig.blind fuel s0 r tr hres).1
  | ehcPlain =>
    exact (search_stats_ok (fifoLaws (Transition S)) succs heuristic goal
      SearchConfig.ehcConfig fuel s0 r tr hres).1
  | ehcSteepest =>
    exact (search_stats_ok (fifoLaws (Transition S)) succs heuristic goal
      SearchConfig.ehcSteepestAscent fuel s0 r tr hres).1
  | gbfs =>
    exact (search_stats_ok (prioLaws gbfsCmp) succs heuristic goal
      SearchConfig.defaultCfg fuel s0 r tr hres).1
  | astar =>
    exact (search_stats_ok (prioLaws aStarCmp) succs heuristic goal
      SearchConfig.defaultCfg fuel s0 r tr hres).1

theorem spec_C10_created_eq_queued_witness : (8 : Nat) = 8 :=
  spec_C10_created_eq_queued Strat.bfs succsTriple heurFive goalFive 10 0
    { plan := some [0, 2, 5], statistics := ⟨8, 8, 5⟩ }
    ((breadth_first_search succsTriple goalFive 10 0).elim [] Prod.snd) (by decide)

/-- C3: with the `ehc` flag set, as soon as the successor loop constructs a
child whose heuristic strictly improves on `best_h` (the earlier siblings
`pre` not having improved), the frontier is cleared and the improving child
is enqueued, and the loop breaks: afterwards the frontier contains exactly
the improving child — the remaining siblings `post` and all previous frontier
entries are gone (the final `index` counter shows `post` was never reached). -/
theorem spec_C3_ehc_restart [DecidableEq S] {qo : QueueOps (Transition S)}
    (hl : QueueLaws qo) (heuristic : S → Int) (cfg : SearchConfig) (parent : Transition S)
    (pre : List S) (s : S) (post : List S) (st : LoopState S qo.Q)
    (hehc : cfg.ehc = true)
    (hpre : ∀ x ∈ pre, ¬(heuristic x < st.best_h))
    (himp : heuristic s < st.best_h) :
    qo.toList (processSuccs qo heuristic cfg parent (pre ++ s :: post) st).queue =
      [Transition.successor s parent (st.index + pre.length + 1) (heuristic s)] ∧
    (processSuccs qo heuristic cfg parent (pre ++ s :: post) st).index =
      st.index + pre.length + 1 := by
  induction pre generalizing st with
  | nil =>
    rw [List.nil_append,
      processSuccs_cons_skip qo heuristic cfg parent s post st himp hehc]
    constructor
    · have hperm := hl.toList_enqueue
        (Transition.successor s parent (st.index + 1) (heuristic s)) (qo.clear st.queue)
      rw [hl.toList_clear] at hperm
      exact List.perm_singleton.mp hperm
    · show st.index + 1 = st.index + 0 + 1
      omega
  | cons x pre' ih =>
    have hx : ¬(heuristic x < st.best_h) := hpre x (List.mem_cons_self x pre')
    have hns : (decide (heuristic x < st.best_h) && cfg.ehc) = false := by
      rw [decide_eq_false hx]
      rfl
    rw [List.cons_append,
      processSuccs_cons_noskip qo heuristic cfg parent x (pre' ++ s :: post) st hns]
    set st' : LoopState S qo.Q :=
      { queue := qo.enqueue (Transition.successor x parent (st.index + 1) (heuristic x))
          st.queue,
        seen := insertSeen st.seen x
          (Transition.successor x parent (st.index + 1) (heuristic x)),
        statistics := ⟨st.statistics.created + 1, st.statistics.queued + 1,
          st.statistics.expanded⟩,
        index := st.index + 1,
        best_h := if heuristic x < st.best_h then heuristic x else st.best_h,
        trace := st.trace ++ [Event.ins x (parent.g + 1) (st.index + 1),
          Event.enq x (parent.g + 1) (st.index + 1)] } with hst'
    have hbest : st'.best_h = st.best_h := by
      rw [hst']
      show (if heuristic x < st.best_h then heuristic x else st.best_h) = st.best_h
      rw [if_neg hx]
    have hidx : st'.index = st.index + 1 := rfl
    have hpre' : ∀ y ∈ pre', ¬(heuristic y < st'.best_h) := by
      intro y hy
      rw [hbest]
      exact hpre y (List.mem_cons_of_mem x hy)
    have himp' : heuristic s < st'.best_h := by rw [hbest]; exact himp
    obtain ⟨hq, hi⟩ := ih st' hpre' himp'
    rw [hidx] at hq hi
    constructor
    · rw [hq]
      have : st.index + 1 + pre'.length + 1 = st.index + (x :: pre').length + 1 := by
        simp [List.length_cons]
        omega
      rw [this]
    · rw [hi, List.length_cons]
      omega

theorem spec_C3_ehc_restart_witness :
    SearchConfig.ehcConfig.ehc = true ∧
      (∀ x ∈ ([0] : List Nat), ¬(heurFive x < 5)) ∧ heurFive 3 < 5 ∧
      (fifoOps (Transition Nat)).toList
          (processSuccs (fifoOps (Transition Nat)) heurFive SearchConfig.ehcConfig
            (Transition.initial 0 5) [0, 3, 2]
            ⟨[Transition.initial 0 5], [], ⟨1, 1, 1⟩, 0, 5, []⟩).queue =
        [Transition.successor 3 (Transition.initial 0 5) 2 (heurFive 3)] := by
  refine ⟨rfl, by decide, by decide, ?_⟩
  exact (spec_C3_ehc_restart (fifoLaws (Transition Nat)) heurFive SearchConfig.ehcConfig
    (Transition.initial 0 5) [0] 3 [2]
    ⟨[Transition.initial 0 5], [], ⟨1, 1, 1⟩, 0, 5, []⟩ rfl (by decide) (by decide)).1

/-! ### The A* comparator and evaluator -/

theorem cmpInt_eq_lt {x y : Int} : cmpInt x y = .lt ↔ x < y := by
  rw [cmpInt]
  by_cases h1 : x < y
  · simp [h1]
  · by_cases h2 : x = y <;> simp [h1, h2]

theorem cmpInt_eq_eq {x y : Int} : cmpInt x y = .eq ↔ x = y := by
  rw [cmpInt]
  by_cases h1 : x < y
  · simp [h1]
    omega
  · by_cases h2 : x = y <;> simp [h1, h2]

theorem cmpNat_eq_lt {x y : Nat} : cmpNat x y = .lt ↔ x < y := by
  rw [cmpNat]
  by_cases h1 : x < y
  · simp [h1]
  · by_cases h2 : x = y <;> simp [h1, h2]

theorem cmpNat_eq_eq {x y : Nat} : cmpNat x y = .eq ↔ x = y := by
  rw [cmpNat]
  by_cases h1 : x < y
  · simp [h1]
    omega
  · by_cases h2 : x = y <;> simp [h1, h2]

theorem aStarCmp_ne_lt {a b : Transition S} : ¬(aStarCmp a b = .lt) ↔ aStarKeyLe a b := by
  rw [aStarCmp, aStarKeyLe, Ordering.then_eq_lt, Ordering.then_eq_lt,
    cmpInt_eq_lt, cmpInt_eq_eq, cmpInt_eq_lt, cmpInt_eq_eq, cmpNat_eq_lt]
  constructor
  · intro hn
    push_neg at hn
    obtain ⟨h1, h2⟩ := hn
    rcases lt_trichotomy (a_star_eval a) (a_star_eval b) with hf | hf | hf
    · exact Or.inl hf
    · refine Or.inr ⟨hf, ?_⟩
      have h3 := h2 hf.symm
      push_neg at h3
      obtain ⟨h4, h5⟩ := h3
      rcases lt_trichotomy a.h b.h with hh | hh | hh
      · exact Or.inl hh
      · exact Or.inr ⟨hh, by have := h5 hh.symm; omega⟩
      · omega
    · omega
  · intro hle
    intro hcon
    rcases hcon with hf | ⟨hf, hcon⟩
    · rcases hle with h | ⟨h, -⟩ <;> omega
    · rcases hle with h | ⟨-, hle⟩
      · omega
      · rcases hcon with hh | ⟨hh, hi⟩
        · rcases hle with h | ⟨h, -⟩ <;> omega
        · rcases hle with h | ⟨h, hle⟩
          · omega
          · omega

theorem aStarKeyLe_refl (a : Transition S) : aStarKeyLe a a :=
  Or.inr ⟨rfl, Or.inr ⟨rfl, Nat.le_refl _⟩⟩

theorem aStarKeyLe_trans {a b c : Transition S} (hab : aStarKeyLe a b)
    (hbc : aStarKeyLe b c) : aStarKeyLe a c := by
  rw [aStarKeyLe] at hab hbc ⊢
  rcases hab with h1 | ⟨h1, h2⟩ <;> rcases hbc with h3 | ⟨h3, h4⟩
  · exact Or.inl (by omega)
  · exact Or.inl (by omega)
  · exact Or.inl (by omega)
  · refine Or.inr ⟨by omega, ?_⟩
    rcases h2 with h5 | ⟨h5, h6⟩ <;> rcases h4 with h7 | ⟨h7, h8⟩
    · exact Or.inl (by omega)
    · exact Or.inl (by omega)
    · exact Or.inl (by omega)
    · exact Or.inr ⟨by omega, by omega⟩

theorem selMax_aStar_min {l l' : List (Transition S)} {t : Transition S}
    (hq : selMax aStarCmp l = some (t, l')) : ∀ u ∈ l, aStarKeyLe t u := by
  induction l generalizing t l' with
  | nil => simp [selMax] at hq
  | cons x xs ih =>
    simp only [selMax] at hq
    cases hsel : selMax aStarCmp xs with
    | none =>
      simp only [hsel, Option.some.injEq, Prod.mk.injEq] at hq
      have hxs : xs = [] := selMax_eq_none.mp hsel
      subst hxs
      rw [← hq.1]
      intro u hu
      simp only [List.mem_singleton] at hu
      rw [hu]
      exact aStarKeyLe_refl x
    | some p =>
      rcases p with ⟨m, rest⟩
      simp only [hsel] at hq
      by_cases hc : aStarCmp x m = .lt
      · simp only [if_pos hc, Option.some.injEq, Prod.mk.injEq] at hq
        rw [← hq.1]
        intro u hu
        rcases List.mem_cons.mp hu with hu | hu
        · rw [hu]
          have hxm : aStarKeyLe m x := by
            rw [← aStarCmp_ne_lt]
            intro hmx
            rw [aStarCmp, Ordering.then_eq_lt, Ordering.then_eq_lt] at hc hmx
            simp only [cmpInt_eq_lt, cmpInt_eq_eq, cmpNat_eq_lt] at hc hmx
            rcases hc with h1 | ⟨h1, h2⟩ <;> rcases hmx with h3 | ⟨h3, h4⟩
            · omega
            · omega
            · omega
            · rcases h2 with h5 | ⟨h5, h6⟩ <;> rcases h4 with h7 | ⟨h7, h8⟩ <;> omega
          exact hxm
        · exact ih hsel u hu
      · simp only [if_neg hc, Option.some.injEq, Prod.mk.injEq] at hq
        rw [← hq.1]
        intro u hu
        have hxm : aStarKeyLe x m := aStarCmp_ne_lt.mp hc
        rcases List.mem_cons.mp hu with hu | hu
        · rw [hu]
          exact aStarKeyLe_refl x
        · exact aStarKeyLe_trans hxm (ih hsel u hu)

theorem u32ToI32_range (g : Nat) :
    -2147483648 ≤ u32ToI32 g ∧ u32ToI32 g ≤ INT32MAX := by
  rw [u32ToI32, INT32MAX]
  have hmod : g % 4294967296 < 4294967296 := Nat.mod_lt _ (by omega)
  by_cases hlt : g % 4294967296 < 2147483648
  · rw [if_pos hlt]
    constructor <;> omega
  · rw [if_neg hlt]
    push_neg at hlt
    constructor <;> omega

theorem u32ToI32_of_le (g : Nat) (hg : (g : Int) ≤ INT32MAX) : u32ToI32 g = (g : Int) := by
  rw [u32ToI32, INT32MAX] at *
  have hsmall : g % 4294967296 = g := Nat.mod_eq_of_lt (by omega)
  rw [hsmall, if_pos (by omega)]

/-- C4: in `a_star_search` (which runs `search` on `prioOps aStarCmp`),
dequeue returns a transition minimal by saturated `f = g + h`, with ties
broken by smaller `h` and then by smaller `index` (so older entries pop
first among equals); `f` saturates at `i32::MAX` whenever `g + h` reaches or
exceeds it — in particular when `h` is the unreachable sentinel `i32::MAX` —
and for `0 ≤ h ≤ i32::MAX` every `i32` operation in the evaluator stays in
range, for any `g` (the `u32 as i32` cast wraps and cannot overflow). -/
theorem spec_C4_astar_order :
    (∀ (S : Type) [DecidableEq S] (succs : S → List S) (heuristic : S → Int)
      (goal : S → Bool) (fuel : Nat) (s0 : S),
      a_star_search succs heuristic goal fuel s0 =
        search (prioOps aStarCmp) succs heuristic goal SearchConfig.defaultCfg fuel s0) ∧
    (∀ (S : Type) (l l' : List (Transition S)) (t : Transition S),
      (prioOps (aStarCmp (S := S))).dequeue l = some (t, l') →
      ∀ u ∈ l, a_star_eval t < a_star_eval u ∨
        (a_star_eval t = a_star_eval u ∧
          (t.h < u.h ∨ (t.h = u.h ∧ t.index ≤ u.index)))) ∧
    (∀ (S : Type) (t : Transition S), 0 ≤ t.h → t.h ≤ INT32MAX → (t.g : Int) ≤ INT32MAX →
      a_star_eval t = min ((t.g : Int) + t.h) INT32MAX ∧
        (INT32MAX < (t.g : Int) + t.h → a_star_eval t = INT32MAX) ∧
        (t.h = INT32MAX → a_star_eval t = INT32MAX)) ∧
    (∀ (S : Type) (t : Transition S), 0 ≤ t.h → t.h ≤ INT32MAX →
      a_star_eval_checked t = some (a_star_eval t)) := by
  refine ⟨fun S _ succs heuristic goal fuel s0 => rfl, ?_, ?_, ?_⟩
  · intro S l l' t hq u hu
    exact selMax_aStar_min hq u hu
  · intro S t h0 hmax hg
    have hcast := u32ToI32_of_le t.g hg
    rw [a_star_eval, hcast]
    constructor
    · by_cases hsat : INT32MAX - t.h ≤ (t.g : Int)
      · rw [if_pos hsat]
        omega
      · rw [if_neg hsat]
        omega
    constructor
    · intro hover
      rw [if_pos (by omega)]
    · intro hsent
      rw [if_pos (by omega)]
  · intro S t h0 hmax
    have hrange := u32ToI32_range t.g
    rw [a_star_eval_checked, a_star_eval]
    rw [if_neg (by rw [INT32MAX] at *; omega)]
    by_cases hsat : INT32MAX - t.h ≤ u32ToI32 t.g
    · rw [if_pos hsat, if_pos hsat]
    · rw [if_neg hsat, if_neg hsat, if_neg (by rw [INT32MAX] at *; omega)]

theorem spec_C4_astar_order_witness :
    ((prioOps (aStarCmp (S := Nat))).dequeue
        [Transition.intermediate 7 (Transition.initial 0 3) 1 1 4,
          Transition.intermediate 8 (Transition.initial 0 3) 1 2 2] =
      some (Transition.intermediate 8 (Transition.initial 0 3) 1 2 2,
        [Transition.intermediate 7 (Transition.initial 0 3) 1 1 4])) ∧
    (a_star_eval (Transition.intermediate 9 (Transition.initial 0 3) 1 3 INT32MAX) =
      INT32MAX) ∧
    (a_star_eval_checked (Transition.intermediate 9 (Transition.initial 0 3) 1 3 INT32MAX) =
      some (a_star_eval (Transition.intermediate 9 (Transition.initial 0 3) 1 3 INT32MAX))) ∧
    (a_star_eval (Transition.intermediate 8 (Transition.initial 0 3) 1 2 2) <
      a_star_eval (Transition.intermediate 7 (Transition.initial 0 3) 1 1 4) ∨
      (a_star_eval (Transition.intermediate 8 (Transition.initial 0 3) 1 2 2) =
        a_star_eval (Transition.intermediate 7 (Transition.initial 0 3) 1 1 4) ∧
        ((Transition.intermediate 8 (Transition.initial 0 3) 1 2 2).h <
          (Transition.intermediate 7 (Transition.initial 0 3) 1 1 4).h ∨
          ((Transition.intermediate 8 (Transition.initial 0 3) 1 2 2).h =
            (Transition.intermediate 7 (Transition.initial 0 3) 1 1 4).h ∧
            (Transition.intermediate 8 (Transition.initial 0 3) 1 2 2).index ≤
              (Transition.intermediate 7 (Transition.initial 0 3) 1 1 4).index)))) := by
  refine ⟨by rfl, ?_, ?_, ?_⟩
  · exact (spec_C4_astar_order.2.2.1 Nat
      (Transition.intermediate 9 (Transition.initial 0 3) 1 3 INT32MAX)
      (by decide) (by decide) (by decide)).2.2 rfl
  · exact spec_C4_astar_order.2.2.2 Nat
      (Transition.intermediate 9 (Transition.initial 0 3) 1 3 INT32MAX)
      (by decide) (by decide)
  · exact spec_C4_astar_order.2.1 Nat
      [Transition.intermediate 7 (Transition.initial 0 3) 1 1 4,
        Transition.intermediate 8 (Transition.initial 0 3) 1 2 2]
      [Transition.intermediate 7 (Transition.initial 0 3) 1 1 4]
      (Transition.intermediate 8 (Transition.initial 0 3) 1 2 2)
      (by rfl)
      (Transition.intermediate 7 (Transition.initial 0 3) 1 1 4)
      (by decide)

/-! ### Trace properties: the relation between closed-set inserts and
frontier enqueues (claim C8) -/

theorem lookupSeen_insert [DecidableEq S] (seen : Seen S) (s x : S) (t : Transition S) :
    lookupSeen (insertSeen seen s t) x = if x = s then some t else lookupSeen seen x := rfl

theorem pairProp_append {t1 t2 : List (Event S)} (hp1 : PairProp t1) (hp2 : PairProp t2)
    (hcross : ∀ e1 ∈ t1, ∀ e2 ∈ t2, PairOK e1 e2) : PairProp (t1 ++ t2) := by
  intro i j e1 e2 hij h1 h2
  by_cases hj : j < t1.length
  · rw [List.getElem?_append_left hj] at h2
    rw [List.getElem?_append_left (by omega)] at h1
    exact hp1 i j e1 e2 hij h1 h2
  · push_neg at hj
    rw [List.getElem?_append_right hj] at h2
    have he2 : e2 ∈ t2 := List.getElem?_mem h2
    by_cases hi : i < t1.length
    · rw [List.getElem?_append_left hi] at h1
      exact hcross e1 (List.getElem?_mem h1) e2 he2
    · push_neg at hi
      rw [List.getElem?_append_right hi] at h1
      exact hp2 (i - t1.length) (j - t1.length) e1 e2 (by omega) h1 h2

theorem pairProp_two {e1 e2 : Event S} (hok : PairOK e1 e2) : PairProp [e1, e2] := by
  intro i j f1 f2 hij h1 h2
  match j, hij with
  | 1, _ =>
    have hi : i = 0 := by omega
    subst hi
    simp only [List.getElem?_cons_zero, Option.some.injEq] at h1
    simp only [List.getElem?_cons_succ, List.getElem?_cons_zero, Option.some.injEq] at h2
    rw [← h1, ← h2]
    exact hok
  | n + 2, _ =>
    simp at h2

theorem pairOK_to_ins (e1 : Event S) (s : S) (k i : Nat) : PairOK e1 (Event.ins s k i) := by
  intro s' k' a g b _ hcon
  exact absurd hcon (by simp)

/-- One child step of the successor loop preserves the closed-set bound and
the pair property: the child was not pruned against the expansion-time closed
set `seen₀`, and its state's current entry (if any) is untouched since then. -/
theorem step_trace_core [DecidableEq S] (seen₀ seen : Seen S) (tr : List (Event S))
    (parent : Transition S) (s' : S) (idx : Nat) (hv : Int)
    (hfil : seen_and_better seen₀ s' (parent.g + 1) = false)
    (hrel : ∀ t', lookupSeen seen s' = some t' → lookupSeen seen₀ s' = some t')
    (hsb : SeenBound seen tr) (hpp : PairProp tr) :
    SeenBound (insertSeen seen s' (Transition.successor s' parent idx hv))
        (tr ++ [Event.ins s' (parent.g + 1) idx, Event.enq s' (parent.g + 1) idx]) ∧
      PairProp (tr ++ [Event.ins s' (parent.g + 1) idx, Event.enq s' (parent.g + 1) idx]) := by
  have hkey : ∀ k a, Event.ins s' k a ∈ tr → parent.g + 1 < k := by
    intro k a hmem
    obtain ⟨t', hlk, hle⟩ := hsb s' k a hmem
    have hlk₀ := hrel t' hlk
    simp only [seen_and_better, hlk₀] at hfil
    have : ¬(t'.g ≤ parent.g + 1) := by
      intro hcon
      rw [decide_eq_true hcon] at hfil
      exact absurd hfil (by simp)
    omega
  constructor
  · intro s k a hmem
    rw [List.mem_append] at hmem
    rcases hmem with hmem | hmem
    · by_cases hss : s = s'
      · subst hss
        refine ⟨Transition.successor s parent idx hv, ?_, ?_⟩
        · rw [lookupSeen_insert, if_pos rfl]
        · have := hkey k a hmem
          rw [Transition.g_successor]
          omega
      · obtain ⟨t', hlk, hle⟩ := hsb s k a hmem
        refine ⟨t', ?_, hle⟩
        rw [lookupSeen_insert, if_neg hss]
        exact hlk
    · simp only [List.mem_cons, List.mem_singleton] at hmem
      rcases hmem with hmem | hmem | hmem
      · have h1 : s = s' ∧ k = parent.g + 1 := by
          injection hmem with h2 h3 h4
          exact ⟨h2, h3⟩
        obtain ⟨rfl, rfl⟩ := h1
        refine ⟨Transition.successor s parent idx hv, ?_, ?_⟩
        · rw [lookupSeen_insert, if_pos rfl]
        · rw [Transition.g_successor]
      · exact absurd hmem (by simp)
      · exact absurd hmem (by simp)
  · refine pairProp_append hpp (pairProp_two ?_) ?_
    · intro s k a g b hins henq hab
      injection hins with h1 h2 h3
      injection henq with h4 h5 h6
      exact absurd (h3.symm.trans h6) hab
    · intro e1 he1 e2 he2
      simp only [List.mem_cons, List.mem_singleton] at he2
      rcases he2 with he2 | he2 | he2
      · rw [he2]
        exact pairOK_to_ins e1 s' (parent.g + 1) idx
      · rw [he2]
        intro s k a g b hins henq _
        injection henq with h2 h3 h4
        subst h2 h3
        rw [hins] at he1
        exact hkey k a he1
      · exact absurd he2 (by simp)

theorem processSuccs_trace [DecidableEq S] (qo : QueueOps (Transition S))
    (heuristic : S → Int) (cfg : SearchConfig) (parent : Transition S) (seen₀ : Seen S) :
    ∀ (l : List S) (st : LoopState S qo.Q),
      l.Nodup →
      (∀ s' ∈ l, seen_and_better seen₀ s' (parent.g + 1) = false) →
      (∀ s' ∈ l, ∀ t', lookupSeen st.seen s' = some t' → lookupSeen seen₀ s' = some t') →
      SeenBound st.seen st.trace →
      PairProp st.trace →
      SeenBound (processSuccs qo heuristic cfg parent l st).seen
          (processSuccs qo heuristic cfg parent l st).trace ∧
        PairProp (processSuccs qo heuristic cfg parent l st).trace := by
  intro l
  induction l with
  | nil =>
    intro st _ _ _ hsb hpp
    rw [processSuccs_nil]
    exact ⟨hsb, hpp⟩
  | cons s rest ih =>
    intro st hnd hfil hrel hsb hpp
    have hcore := step_trace_core seen₀ st.seen st.trace parent s (st.index + 1)
      (heuristic s) (hfil s (List.mem_cons_self s rest))
      (hrel s (List.mem_cons_self s rest)) hsb hpp
    by_cases hskip : (decide (heuristic s < st.best_h) && cfg.ehc) = true
    · have himp : heuristic s < st.best_h :=
        of_decide_eq_true ((Bool.and_eq_true _ _).mp hskip).1
      have hehc : cfg.ehc = true := ((Bool.and_eq_true _ _).mp hskip).2
      rw [processSuccs_cons_skip qo heuristic cfg parent s rest st himp hehc]
      exact hcore
    · rw [Bool.not_eq_true] at hskip
      rw [processSuccs_cons_noskip qo heuristic cfg parent s rest st hskip]
      refine ih _ (List.Nodup.of_cons hnd) (fun x hx => hfil x (List.mem_cons_of_mem s hx))
        ?_ hcore.1 hcore.2
      intro x hx t' hlk
      have hxs : x ≠ s := by
        intro hcon
        subst hcon
        exact (List.nodup_cons.mp hnd).1 hx
      rw [show lookupSeen
          (insertSeen st.seen s (Transition.successor s parent (st.index + 1) (heuristic s))) x =
          lookupSeen st.seen x by rw [lookupSeen_insert, if_neg hxs]] at hlk
      exact hrel x (List.mem_cons_of_mem s hx) t' hlk

theorem nodup_expandSuccs [DecidableEq S] {succs : S → List S} {heuristic : S → Int}
    {cfg : SearchConfig} {seen : Seen S} {t : Transition S}
    (hnd : (succs t.state).Nodup) : (expandSuccs succs heuristic cfg seen t).Nodup := by
  rw [expandSuccs]
  have hf : ((succs t.state).filter
      (fun s => !(seen_and_better seen s (t.g + 1)))).Nodup := hnd.filter _
  by_cases hbf : (cfg.compute_heuristic && cfg.best_first_successors) = true
  · rw [if_pos hbf]
    exact ((sortByH_perm heuristic _).nodup_iff).mpr hf
  · rw [if_neg hbf]
    exact hf

theorem searchAux_trace [DecidableEq S] (qo : QueueOps (Transition S)) (succs : S → List S)
    (heuristic : S → Int) (goal : S → Bool) (cfg : SearchConfig)
    (hnd : ∀ s, (succs s).Nodup) :
    ∀ (fuel : Nat) (st : LoopState S qo.Q) (r : SearchResult S) (tr : List (Event S)),
      searchAux qo succs heuristic goal cfg fuel st = some (r, tr) →
      SeenBound st.seen st.trace →
      PairProp st.trace →
      PairProp tr := by
  intro fuel
  induction fuel with
  | zero => intro st r tr hres; simp [searchAux_zero] at hres
  | succ n ih =>
    intro st r tr hres hsb hpp
    cases hd : qo.dequeue st.queue with
    | none =>
      rw [searchAux_dequeue_none qo succs heuristic goal cfg n st hd] at hres
      simp only [Option.some.injEq, Prod.mk.injEq] at hres
      rw [← hres.2]
      exact hpp
    | some pr =>
      rcases pr with ⟨t, q₂⟩
      by_cases hg : goal t.state = true
      · rw [searchAux_dequeue_goal qo succs heuristic goal cfg n st t q₂ hd hg] at hres
        simp only [Option.some.injEq, Prod.mk.injEq] at hres
        rw [← hres.2]
        exact hpp
      · rw [Bool.not_eq_true] at hg
        rw [searchAux_dequeue_expand qo succs heuristic goal cfg n st t q₂ hd hg] at hres
        have htr := processSuccs_trace qo heuristic cfg t st.seen
          (expandSuccs succs heuristic cfg st.seen t)
          ⟨q₂, st.seen, ⟨st.statistics.created, st.statistics.queued,
            st.statistics.expanded + 1⟩, st.index, st.best_h, st.trace⟩
          (nodup_expandSuccs (hnd t.state))
          (fun x hx => (mem_expandSuccs.mp hx).2)
          (fun x _ t' hlk => hlk) hsb hpp
        have hsb' : SeenBound (stepState qo succs heuristic cfg st t q₂).seen
            (stepState qo succs heuristic cfg st t q₂).trace := htr.1
        have hpp' : PairProp (stepState qo succs heuristic cfg st t q₂).trace := htr.2
        exact ih _ r tr hres hsb' hpp'

/-- C8 as stated is refuted: on a successor list containing a duplicate state
(`successors(0) = [1, 1]`), the driver checks both copies against the closed
set before the successor loop runs, so after inserting state `1` with
`g = 1` (transition index 1) it subsequently enqueues a different transition
for state `1` with the same depth `g = 1` (transition index 2): the recorded
trace of `breadth_first_search` violates `PairProp`. -/
theorem spec_C8_counterexample :
    breadth_first_search succsDup goalNever 5 0 =
      some ({ plan := none, statistics := ⟨3, 3, 3⟩ },
        [Event.ins 0 0 0, Event.enq 0 0 0, Event.ins 1 1 1, Event.enq 1 1 1,
          Event.ins 1 1 2, Event.enq 1 1 2]) ∧
    ¬ PairProp [Event.ins 0 0 0, Event.enq 0 0 0, Event.ins 1 1 1, Event.enq 1 1 1,
        Event.ins (1 : Nat) 1 2, Event.enq 1 1 2] := by
  constructor
  · rfl
  · intro hpp
    have := hpp 2 5 (Event.ins 1 1 1) (Event.enq 1 1 2) (by omega) rfl rfl
      1 1 1 1 2 rfl rfl (by omega)
    omega

/-- C8 amended: provided every successor list is duplicate-free, once a state
has been inserted into the closed set with depth `k`, every *other*
transition subsequently enqueued for that state (different insertion index)
has depth strictly below `k` — for every run of the search driver, over any
frontier and configuration.  (The transition whose own insert immediately
precedes its enqueue shares its index and is exempt: the driver always
inserts a child into the closed set and then enqueues that same child.) -/
theorem spec_C8_no_stale_reenqueue [DecidableEq S] (qo : QueueOps (Transition S))
    (succs : S → List S) (heuristic : S → Int) (goal : S → Bool) (cfg : SearchConfig)
    (fuel : Nat) (s0 : S) (r : SearchResult S) (tr : List (Event S))
    (hnd : ∀ s, (succs s).Nodup)
    (hres : search qo succs heuristic goal cfg fuel s0 = some (r, tr)) :
    ∀ (i j : Nat) (s : S) (k a g b : Nat), i < j → tr[i]? = some (Event.ins s k a) →
      tr[j]? = some (Event.enq s g b) → a ≠ b → g < k := by
  rw [search_eq] at hres
  have hpp : PairProp tr := by
    refine searchAux_trace qo succs heuristic goal cfg hnd fuel _ r tr hres ?_ ?_
    · intro s k a hmem
      simp only [List.mem_cons, List.mem_singleton] at hmem
      rcases hmem with hmem | hmem | hmem
      · have h1 : s = s0 ∧ k = 0 := by
          injection hmem with h2 h3 h4
          exact ⟨h2, h3⟩
        obtain ⟨rfl, rfl⟩ := h1
        refine ⟨Transition.initial s (heuristic s), ?_, Nat.le_refl _⟩
        rw [show (insertSeen ([] : Seen S) s (Transition.initial s (heuristic s))) =
          [(s, Transition.initial s (heuristic s))] from rfl]
        rw [lookupSeen, if_pos rfl]
      · exact absurd hmem (by simp)
      · exact absurd hmem (by simp)
    · refine pairProp_two ?_
      intro s k a g b hins henq hab
      injection hins with h1 h2 h3
      injection henq with h4 h5 h6
      subst h3 h6
      exact absurd rfl hab
  intro i j s k a g b hij hi hj hab
  exact hpp i j (Event.ins s k a) (Event.enq s g b) hij hi hj s k a g b rfl rfl hab

theorem spec_C8_no_stale_reenqueue_witness :
    (2 : Nat) < 3 :=
  spec_C8_no_stale_reenqueue (prioOps gbfsCmp) succsDiamond heurDiamond goalNever
    SearchConfig.defaultCfg 10 0
    { plan := none, statistics := ⟨6, 6, 6⟩ }
    [Event.ins 0 0 0, Event.enq 0 0 0, Event.ins 1 1 1, Event.enq 1 1 1,
      Event.ins 2 1 2, Event.enq 2 1 2, Event.ins 3 2 3, Event.enq 3 2 3,
      Event.ins 4 3 4, Event.enq 4 3 4, Event.ins 4 2 5, Event.enq 4 2 5]
    (by intro s; rw [succsDiamond]; split_ifs <;> simp)
    (by rfl) 8 11 4 3 4 2 5 (by omega) (by rfl) (by rfl) (by omega)

/-! ### Termination on finite goal-free state spaces (claim C6) -/

theorem countP_congr_mem {p q : α → Bool} :
    ∀ {l : List α}, (∀ a ∈ l, p a = q a) → l.countP p = l.countP q := by
  intro l
  induction l with
  | nil => intro _; rfl
  | cons a l ih =>
    intro h
    rw [List.countP_cons, List.countP_cons, h a (List.mem_cons_self a l),
      ih (fun x hx => h x (List.mem_cons_of_mem a hx))]

theorem lookupSeen_insert_ne [DecidableEq S] (seen : Seen S) (x z : S) (t : Transition S)
    (h : z ≠ x) : lookupSeen (insertSeen seen x t) z = lookupSeen seen z := by
  rw [lookupSeen_insert, if_neg h]

theorem unseenCount_insert_untouched [DecidableEq S] {L : List S} {seen : Seen S} {x : S}
    (t : Transition S) (hx : x ∉ L) :
    unseenCount L (insertSeen seen x t) = unseenCount L seen := by
  rw [unseenCount, unseenCount]
  apply countP_congr_mem
  intro z hz
  rw [lookupSeen_insert_ne seen x z t (fun hc => hx (hc ▸ hz))]

theorem unseenCount_insert_new [DecidableEq S] {L : List S} {seen : Seen S} {x : S}
    (hnd : L.Nodup) (hx : x ∈ L) (t : Transition S) (hnone : lookupSeen seen x = none) :
    unseenCount L (insertSeen seen x t) + 1 = unseenCount L seen := by
  induction L with
  | nil => simp at hx
  | cons y L' ih =>
    rw [unseenCount, unseenCount]
    simp only [List.countP_cons]
    by_cases hyx : y = x
    · subst hyx
      have hyL : y ∉ L' := (List.nodup_cons.mp hnd).1
      have h1 : (lookupSeen (insertSeen seen y t) y).isNone = false := by
        rw [lookupSeen_insert, if_pos rfl]
        rfl
      have h2 : (lookupSeen seen y).isNone = true := by
        rw [hnone]
        rfl
      rw [h1, h2]
      simp only [Bool.false_eq_true, if_false, if_true]
      have h3 : unseenCount L' (insertSeen seen y t) = unseenCount L' seen :=
        unseenCount_insert_untouched t hyL
      rw [unseenCount, unseenCount] at h3
      omega
    · have h1 : lookupSeen (insertSeen seen x t) y = lookupSeen seen y :=
        lookupSeen_insert_ne seen x y t hyx
      have hxL' : x ∈ L' := by
        rcases List.mem_cons.mp hx with h | h
        · exact absurd h.symm hyx
        · exact h
      have ih' := ih (List.nodup_cons.mp hnd).2 hxL'
      rw [unseenCount, unseenCount] at ih'
      rw [h1]
      omega

theorem unseenCount_insert_some [DecidableEq S] {L : List S} {seen : Seen S} {x : S}
    (t w : Transition S) (hsome : lookupSeen seen x = some w) :
    unseenCount L (insertSeen seen x t) = unseenCount L seen := by
  rw [unseenCount, unseenCount]
  apply countP_congr_mem
  intro z hz
  by_cases hzx : z = x
  · subst hzx
    rw [lookupSeen_insert, if_pos rfl, hsome]
    rfl
  · rw [lookupSeen_insert_ne seen x z t hzx]

theorem seenGSum_insert_untouched [DecidableEq S] {L : List S} {seen : Seen S} {x : S}
    (t : Transition S) (hx : x ∉ L) :
    seenGSum L (insertSeen seen x t) = seenGSum L seen := by
  rw [seenGSum, seenGSum]
  congr 1
  apply List.map_eq_map_iff.mpr
  intro z hz
  rw [lookupSeen_insert_ne seen x z t (fun hc => hx (hc ▸ hz))]

theorem seenGSum_insert_exchange [DecidableEq S] {L : List S} {seen : Seen S} {x : S}
    (hnd : L.Nodup) (hx : x ∈ L) (t w : Transition S) (hsome : lookupSeen seen x = some w) :
    seenGSum L (insertSeen seen x t) + w.g = seenGSum L seen + t.g := by
  induction L with
  | nil => simp at hx
  | cons y L' ih =>
    rw [seenGSum, seenGSum]
    simp only [List.map_cons, List.sum_cons]
    by_cases hyx : y = x
    · subst hyx
      have hyL : y ∉ L' := (List.nodup_cons.mp hnd).1
      have h1 : lookupSeen (insertSeen seen y t) y = some t := by
        rw [lookupSeen_insert, if_pos rfl]
      rw [h1, hsome]
      have h3 : seenGSum L' (insertSeen seen y t) = seenGSum L' seen :=
        seenGSum_insert_untouched t hyL
      rw [seenGSum, seenGSum] at h3
      simp only
      omega
    · have h1 : lookupSeen (insertSeen seen x t) y = lookupSeen seen y :=
        lookupSeen_insert_ne seen x y t hyx
      have hxL' : x ∈ L' := by
        rcases List.mem_cons.mp hx with h | h
        · exact absurd h.symm hyx
        · exact h
      have ih' := ih (List.nodup_cons.mp hnd).2 hxL'
      rw [seenGSum, seenGSum] at ih'
      rw [h1]
      omega

/-- Effect of one successor-loop child insert on the `(unseenCount, seenGSum)`
measure pair: strictly smaller in lexicographic order when the child's state
is untouched since the expansion-time filter, unchanged when the state was
already re-inserted at the same depth by an earlier duplicate sibling. -/
theorem insert_measure_step [DecidableEq S] {L : List S} (hnd : L.Nodup) {seen₀ : Seen S}
    {seen : Seen S} {x : S} (hxL : x ∈ L) (parent : Transition S) (idx : Nat) (hv : Int)
    (hfil : seen_and_better seen₀ x (parent.g + 1) = false)
    (hrel : lookupSeen seen x = lookupSeen seen₀ x ∨
      ∃ w, lookupSeen seen x = some w ∧ w.g = parent.g + 1) :
    (unseenCount L (insertSeen seen x (Transition.successor x parent idx hv)) <
        unseenCount L seen ∨
      (unseenCount L (insertSeen seen x (Transition.successor x parent idx hv)) =
          unseenCount L seen ∧
        seenGSum L (insertSeen seen x (Transition.successor x parent idx hv)) ≤
          seenGSum L seen)) ∧
    (lookupSeen seen x = lookupSeen seen₀ x →
      (unseenCount L (insertSeen seen x (Transition.successor x parent idx hv)) <
          unseenCount L seen ∨
        (unseenCount L (insertSeen seen x (Transition.successor x parent idx hv)) =
            unseenCount L seen ∧
          seenGSum L (insertSeen seen x (Transition.successor x parent idx hv)) <
            seenGSum L seen))) := by
  have huntouched : lookupSeen seen x = lookupSeen seen₀ x →
      (unseenCount L (insertSeen seen x (Transition.successor x parent idx hv)) <
          unseenCount L seen ∨
        (unseenCount L (insertSeen seen x (Transition.successor x parent idx hv)) =
            unseenCount L seen ∧
          seenGSum L (insertSeen seen x (Transition.successor x parent idx hv)) <
            seenGSum L seen)) := by
    intro heq
    cases hcase : lookupSeen seen₀ x with
    | none =>
      left
      have := unseenCount_insert_new hnd hxL
        (Transition.successor x parent idx hv) (heq.trans hcase)
      omega
    | some w =>
      right
      refine ⟨unseenCount_insert_some _ w (heq.trans hcase), ?_⟩
      have hwg : parent.g + 1 < w.g := by
        simp only [seen_and_better, hcase] at hfil
        have : ¬(w.g ≤ parent.g + 1) := by
          intro hcon
          rw [decide_eq_true hcon] at hfil
          exact absurd hfil (by simp)
        omega
      have hex := seenGSum_insert_exchange hnd hxL
        (Transition.successor x parent idx hv) w (heq.trans hcase)
      rw [Transition.g_successor] at hex
      omega
  refine ⟨?_, huntouched⟩
  rcases hrel with heq | ⟨w, hw, hwg⟩
  · rcases huntouched heq with h | ⟨h1, h2⟩
    · exact Or.inl h
    · exact Or.inr ⟨h1, le_of_lt h2⟩
  · right
    refine ⟨unseenCount_insert_some _ w hw, ?_⟩
    have hex := seenGSum_insert_exchange hnd hxL
      (Transition.successor x parent idx hv) w hw
    rw [Transition.g_successor] at hex
    omega

/-- Running the successor loop never lexicographically increases the
`(unseenCount, seenGSum)` measure pair, given that every child passed the
expansion-time filter and each child's closed-set entry is either untouched
since then or a same-depth entry from an earlier duplicate sibling. -/
theorem processSuccs_measure_le [DecidableEq S] {qo : QueueOps (Transition S)}
    (heuristic : S → Int) (cfg : SearchConfig) (parent : Transition S)
    {L : List S} (hnd : L.Nodup) (seen₀ : Seen S) :
    ∀ (l : List S) (st : LoopState S qo.Q),
      (∀ x ∈ l, x ∈ L) →
      (∀ x ∈ l, seen_and_better seen₀ x (parent.g + 1) = false) →
      (∀ x ∈ l, lookupSeen st.seen x = lookupSeen seen₀ x ∨
        ∃ w, lookupSeen st.seen x = some w ∧ w.g = parent.g + 1) →
      unseenCount L (processSuccs qo heuristic cfg parent l st).seen <
          unseenCount L st.seen ∨
        (unseenCount L (processSuccs qo heuristic cfg parent l st).seen =
            unseenCount L st.seen ∧
          seenGSum L (processSuccs qo heuristic cfg parent l st).seen ≤
            seenGSum L st.seen) := by
  intro l
  induction l with
  | nil =>
    intro st _ _ _
    rw [processSuccs_nil]
    exact Or.inr ⟨rfl, le_refl _⟩
  | cons x rest ih =>
    intro st hmemL hfil hrel
    have hstep := (insert_measure_step hnd (hmemL x (List.mem_cons_self x rest)) parent
      (st.index + 1) (heuristic x) (hfil x (List.mem_cons_self x rest))
      (hrel x (List.mem_cons_self x rest))).1
    by_cases hskip : (decide (heuristic x < st.best_h) && cfg.ehc) = true
    · have himp : heuristic x < st.best_h :=
        of_decide_eq_true ((Bool.and_eq_true _ _).mp hskip).1
      have hehc : cfg.ehc = true := ((Bool.and_eq_true _ _).mp hskip).2
      rw [processSuccs_cons_skip qo heuristic cfg parent x rest st himp hehc]
      exact hstep
    · rw [Bool.not_eq_true] at hskip
      rw [processSuccs_cons_noskip qo heuristic cfg parent x rest st hskip]
      set st₁ : LoopState S qo.Q :=
        { queue := qo.enqueue (Transition.successor x parent (st.index + 1) (heuristic x))
            st.queue,
          seen := insertSeen st.seen x
            (Transition.successor x parent (st.index + 1) (heuristic x)),
          statistics := ⟨st.statistics.created + 1, st.statistics.queued + 1,
            st.statistics.expanded⟩,
          index := st.index + 1,
          best_h := if heuristic x < st.best_h then heuristic x else st.best_h,
          trace := st.trace ++ [Event.ins x (parent.g + 1) (st.index + 1),
            Event.enq x (parent.g + 1) (st.index + 1)] } with hst₁
      have hseen₁ : st₁.seen = insertSeen st.seen x
          (Transition.successor x parent (st.index + 1) (heuristic x)) := rfl
      have hrest := ih st₁
        (fun y hy => hmemL y (List.mem_cons_of_mem x hy))
        (fun y hy => hfil y (List.mem_cons_of_mem x hy))
        ?_
      · rw [hseen₁] at hrest
        rcases hrest with h | ⟨h1, h2⟩ <;> rcases hstep with h3 | ⟨h3, h4⟩
        · left; omega
        · left; omega
        · left; omega
        · right; exact ⟨by omega, by omega⟩
      · intro y hy
        rw [hseen₁]
        by_cases hyx : y = x
        · subst hyx
          right
          refine ⟨Transition.successor y parent (st.index + 1) (heuristic y), ?_, ?_⟩
          · rw [lookupSeen_insert, if_pos rfl]
          · rw [Transition.g_successor]
        · rw [lookupSeen_insert_ne _ _ _ _ hyx]
          exact hrel y (List.mem_cons_of_mem x hy)

/-- Expanding at least one surviving child strictly decreases the
`(unseenCount, seenGSum)` measure pair in lexicographic order. -/
theorem processSuccs_measure_lt [DecidableEq S] {qo : QueueOps (Transition S)}
    (heuristic : S → Int) (cfg : SearchConfig) (parent : Transition S)
    {L : List S} (hnd : L.Nodup) (x : S) (rest : List S) (st : LoopState S qo.Q)
    (hmemL : ∀ y ∈ x :: rest, y ∈ L)
    (hfil : ∀ y ∈ x :: rest, seen_and_better st.seen y (parent.g + 1) = false) :
    unseenCount L (processSuccs qo heuristic cfg parent (x :: rest) st).seen <
        unseenCount L st.seen ∨
      (unseenCount L (processSuccs qo heuristic cfg parent (x :: rest) st).seen =
          unseenCount L st.seen ∧
        seenGSum L (processSuccs qo heuristic cfg parent (x :: rest) st).seen <
          seenGSum L st.seen) := by
  have hstep := (insert_measure_step hnd (hmemL x (List.mem_cons_self x rest)) parent
    (st.index + 1) (heuristic x) (hfil x (List.mem_cons_self x rest))
    (Or.inl rfl)).2 rfl
  by_cases hskip : (decide (heuristic x < st.best_h) && cfg.ehc) = true
  · have himp : heuristic x < st.best_h :=
      of_decide_eq_true ((Bool.and_eq_true _ _).mp hskip).1
    have hehc : cfg.ehc = true := ((Bool.and_eq_true _ _).mp hskip).2
    rw [processSuccs_cons_skip qo heuristic cfg parent x rest st himp hehc]
    exact hstep
  · rw [Bool.not_eq_true] at hskip
    rw [processSuccs_cons_noskip qo heuristic cfg parent x rest st hskip]
    set st₁ : LoopState S qo.Q :=
      { queue := qo.enqueue (Transition.successor x parent (st.index + 1) (heuristic x))
          st.queue,
        seen := insertSeen st.seen x
          (Transition.successor x parent (st.index + 1) (heuristic x)),
        statistics := ⟨st.statistics.created + 1, st.statistics.queued + 1,
          st.statistics.expanded⟩,
        index := st.index + 1,
        best_h := if heuristic x < st.best_h then heuristic x else st.best_h,
        trace := st.trace ++ [Event.ins x (parent.g + 1) (st.index + 1),
          Event.enq x (parent.g + 1) (st.index + 1)] } with hst₁
    have hseen₁ : st₁.seen = insertSeen st.seen x
        (Transition.successor x parent (st.index + 1) (heuristic x)) := rfl
    have hrest := processSuccs_measure_le heuristic cfg parent hnd st.seen rest st₁
      (fun y hy => hmemL y (List.mem_cons_of_mem x hy))
      (fun y hy => hfil y (List.mem_cons_of_mem x hy))
      ?_
    · rw [hseen₁] at hrest
      rcases hrest with h | ⟨h1, h2⟩ <;> rcases hstep with h3 | ⟨h3, h4⟩
      · left; omega
      · left; omega
      · left; omega
      · right; exact ⟨by omega, by omega⟩
    · intro y hy
      rw [hseen₁]
      by_cases hyx : y = x
      · subst hyx
        right
        refine ⟨Transition.successor y parent (st.index + 1) (heuristic y), ?_, ?_⟩
        · rw [lookupSeen_insert, if_pos rfl]
        · rw [Transition.g_successor]
      · exact Or.inl (lookupSeen_insert_ne _ _ _ _ hyx)

theorem searchAux_mono [DecidableEq S] (qo : QueueOps (Transition S)) (succs : S → List S)
    (heuristic : S → Int) (goal : S → Bool) (cfg : SearchConfig) :
    ∀ (n : Nat) (st : LoopState S qo.Q) (x : SearchResult S × List (Event S)),
      searchAux qo succs heuristic goal cfg n st = some x →
      ∀ m, n ≤ m → searchAux qo succs heuristic goal cfg m st = some x := by
  intro n
  induction n with
  | zero => intro st x hres; simp [searchAux_zero] at hres
  | succ n ih =>
    intro st x hres m hm
    obtain ⟨m', rfl⟩ : ∃ m', m = m' + 1 := ⟨m - 1, by omega⟩
    cases hd : qo.dequeue st.queue with
    | none =>
      rw [searchAux_dequeue_none qo succs heuristic goal cfg n st hd] at hres
      rw [searchAux_dequeue_none qo succs heuristic goal cfg m' st hd]
      exact hres
    | some pr =>
      rcases pr with ⟨t, q₂⟩
      by_cases hg : goal t.state = true
      · rw [searchAux_dequeue_goal qo succs heuristic goal cfg n st t q₂ hd hg] at hres
        rw [searchAux_dequeue_goal qo succs heuristic goal cfg m' st t q₂ hd hg]
        exact hres
      · rw [Bool.not_eq_true] at hg
        rw [searchAux_dequeue_expand qo succs heuristic goal cfg n st t q₂ hd hg] at hres
        rw [searchAux_dequeue_expand qo succs heuristic goal cfg m' st t q₂ hd hg]
        exact ih _ x hres m' (by omega)

theorem searchAux_terminates [DecidableEq S] {qo : QueueOps (Transition S)}
    (hl : QueueLaws qo) (succs : S → List S) (heuristic : S → Int) (goal : S → Bool)
    (cfg : SearchConfig) (L : List S) (hnd : L.Nodup)
    (hclosed : ∀ s ∈ L, ∀ s' ∈ succs s, s' ∈ L)
    (hng : ∀ s ∈ L, goal s = false) :
    ∀ (a b c : Nat) (st : LoopState S qo.Q),
      unseenCount L st.seen = a → seenGSum L st.seen = b →
      (qo.toList st.queue).length = c →
      (∀ t ∈ qo.toList st.queue, t.state ∈ L) →
      ∃ n r tr, searchAux qo succs heuristic goal cfg n st = some (r, tr) ∧
        r.plan = none := by
  intro a
  induction a using Nat.strong_induction_on with
  | _ a iha =>
  intro b
  induction b using Nat.strong_induction_on with
  | _ b ihb =>
  intro c
  induction c using Nat.strong_induction_on with
  | _ c ihc =>
  intro st ha hb hc hQ
  cases hd : qo.dequeue st.queue with
  | none =>
    exact ⟨1, { plan := none, statistics := st.statistics }, st.trace,
      searchAux_dequeue_none qo succs heuristic goal cfg 0 st hd, rfl⟩
  | some pr =>
    rcases pr with ⟨t, q₂⟩
    have htL : t.state ∈ L := hQ t (hl.mem_of_dequeue hd)
    have hg : goal t.state = false := hng _ htL
    have hQ' : ∀ u ∈ qo.toList (stepState qo succs heuristic cfg st t q₂).queue,
        u.state ∈ L := by
      intro u hu
      rcases processSuccs_queue_mem hl heuristic cfg t _ _ u hu with hu | hu
      · exact hQ u (hl.mem_of_dequeue_rest hd hu)
      · rcases hu with ⟨s', hs', i, hi⟩
        rw [hi, Transition.state_successor]
        exact hclosed t.state htL s' (mem_expandSuccs.mp hs').1
    have hlen := hl.length_dequeue hd
    cases hexp : expandSuccs succs heuristic cfg st.seen t with
    | nil =>
      have hseen : (stepState qo succs heuristic cfg st t q₂).seen = st.seen := by
        rw [stepState, hexp, processSuccs_nil]
      have hque : (stepState qo succs heuristic cfg st t q₂).queue = q₂ := by
        rw [stepState, hexp, processSuccs_nil]
      obtain ⟨n, r, tr, hres, hplan⟩ := ihc (qo.toList q₂).length (by omega)
        (stepState qo succs heuristic cfg st t q₂)
        (by rw [hseen, ha]) (by rw [hseen, hb]) (by rw [hque]) hQ'
      refine ⟨n + 1, r, tr, ?_, hplan⟩
      rw [searchAux_dequeue_expand qo succs heuristic goal cfg n st t q₂ hd hg]
      exact hres
    | cons x rest =>
      have hmemL : ∀ y ∈ x :: rest, y ∈ L := by
        intro y hy
        rw [← hexp] at hy
        exact hclosed t.state htL y (mem_expandSuccs.mp hy).1
      have hfil : ∀ y ∈ x :: rest,
          seen_and_better st.seen y (t.g + 1) = false := by
        intro y hy
        rw [← hexp] at hy
        exact (mem_expandSuccs.mp hy).2
      have hmeas := processSuccs_measure_lt heuristic cfg t hnd x rest
        ⟨q₂, st.seen, ⟨st.statistics.created, st.statistics.queued,
          st.statistics.expanded + 1⟩, st.index, st.best_h, st.trace⟩ hmemL hfil
      have hms : ∀ P : Seen S → Prop,
          P (processSuccs qo heuristic cfg t (x :: rest)
            ⟨q₂, st.seen, ⟨st.statistics.created, st.statistics.queued,
              st.statistics.expanded + 1⟩, st.index, st.best_h, st.trace⟩).seen →
          P (stepState qo succs heuristic cfg st t q₂).seen := by
        intro P hP
        rw [stepState, hexp]
        exact hP
      rcases hmeas with hlt | ⟨heq, hlt⟩
      · obtain ⟨n, r, tr, hres, hplan⟩ := iha
          (unseenCount L (stepState qo succs heuristic cfg st t q₂).seen)
          (by
            refine lt_of_lt_of_le ?_ (le_of_eq ha)
            exact hms (fun sn => unseenCount L sn < unseenCount L st.seen) hlt)
          (seenGSum L (stepState qo succs heuristic cfg st t q₂).seen)
          ((qo.toList (stepState qo succs heuristic cfg st t q₂).queue).length)
          (stepState qo succs heuristic cfg st t q₂) rfl rfl rfl hQ'
        refine ⟨n + 1, r, tr, ?_, hplan⟩
        rw [searchAux_dequeue_expand qo succs heuristic goal cfg n st t q₂ hd hg]
        exact hres
      · obtain ⟨n, r, tr, hres, hplan⟩ := ihb
          (seenGSum L (stepState qo succs heuristic cfg st t q₂).seen)
          (by
            refine lt_of_lt_of_le ?_ (le_of_eq hb)
            exact hms (fun sn => seenGSum L sn < seenGSum L st.seen) hlt)
          ((qo.toList (stepState qo succs heuristic cfg st t q₂).queue).length)
          (stepState qo succs heuristic cfg st t q₂)
          (by
            rw [← ha]
            exact hms (fun sn => unseenCount L sn = unseenCount L st.seen) heq)
          rfl rfl hQ'
        refine ⟨n + 1, r, tr, ?_, hplan⟩
        rw [searchAux_dequeue_expand qo succs heuristic goal cfg n st t q₂ hd hg]
        exact hres

theorem search_terminates [DecidableEq S] {qo : QueueOps (Transition S)} (hl : QueueLaws qo)
    (succs : S → List S) (heuristic : S → Int) (goal : S → Bool) (cfg : SearchConfig)
    (s0 : S) (L : List S) (hnd : L.Nodup) (hs0 : s0 ∈ L)
    (hclosed : ∀ s ∈ L, ∀ s' ∈ succs s, s' ∈ L)
    (hng : ∀ s ∈ L, goal s = false) :
    ∃ N, ∀ fuel, N ≤ fuel → ∃ r tr,
      search qo succs heuristic goal cfg fuel s0 = some (r, tr) ∧ r.plan = none := by
  obtain ⟨n, r, tr, hres, hplan⟩ := searchAux_terminates hl succs heuristic goal cfg L hnd
    hclosed hng _ _ _
    ⟨qo.enqueue (Transition.initial s0 (heuristic s0)) qo.empty,
      insertSeen [] s0 (Transition.initial s0 (heuristic s0)),
      ⟨1, 1, 0⟩, 0, heuristic s0, [Event.ins s0 0 0, Event.enq s0 0 0]⟩
    rfl rfl rfl
    (by
      intro t ht
      have ht' : t ∈ [Transition.initial s0 (heuristic s0)] := by
        rw [← hl.toList_init (Transition.initial s0 (heuristic s0))]
        exact ht
      simp only [List.mem_singleton] at ht'
      rw [ht']
      exact hs0)
  refine ⟨n, fun fuel hf => ⟨r, tr, ?_, hplan⟩⟩
  rw [search_eq]
  exact searchAux_mono qo succs heuristic goal cfg n _ (r, tr) hres fuel hf

/-- C6: when the reachable state space is finite (witnessed by a
duplicate-free list `L` containing the initial state and closed under
successors) and no state of it satisfies the goal, every one of the five
strategy entry points terminates — for all sufficiently large fuel the
embedded loop completes — and returns a `SearchResult` whose plan is `none`. -/
theorem spec_C6_finite_exhaustion [DecidableEq S] (strat : Strat) (succs : S → List S)
    (heuristic : S → Int) (goal : S → Bool) (s0 : S) (L : List S)
    (hnd : L.Nodup) (hs0 : s0 ∈ L)
    (hclosed : ∀ s ∈ L, ∀ s' ∈ succs s, s' ∈ L)
    (hng : ∀ s ∈ L, goal s = false) :
    ∃ N, ∀ fuel, N ≤ fuel → ∃ r tr,
      runStrategy strat succs heuristic goal fuel s0 = some (r, tr) ∧ r.plan = none := by
  cases strat with
  | bfs =>
    exact search_terminates (fifoLaws (Transition S)) succs (blind_heuristic S) goal
      SearchConfig.blind s0 L hnd hs0 hclosed hng
  | ehcPlain =>
    exact search_terminates (fifoLaws (Transition S)) succs heuristic goal
      SearchConfig.ehcConfig s0 L hnd hs0 hclosed hng
  | ehcSteepest =>
    exact search_terminates (fifoLaws (Transition S)) succs heuristic goal
      SearchConfig.ehcSteepestAscent s0 L hnd hs0 hclosed hng
  | gbfs =>
    exact search_terminates (prioLaws gbfsCmp) succs heuristic goal
      SearchConfig.defaultCfg s0 L hnd hs0 hclosed hng
  | astar =>
    exact search_terminates (prioLaws aStarCmp) succs heuristic goal
      SearchConfig.defaultCfg s0 L hnd hs0 hclosed hng

theorem spec_C6_finite_exhaustion_witness :
    ∃ N, ∀ fuel, N ≤ fuel → ∃ r tr,
      runStrategy Strat.bfs succsLine (fun _ => 0) goalNever fuel 0 = some (r, tr) ∧
        r.plan = none :=
  spec_C6_finite_exhaustion Strat.bfs succsLine (fun _ => 0) goalNever 0 [0, 1, 2]
    (by decide) (by decide) (by decide) (by decide)

/-! ### Breadth-first search is optimal (claim C2) -/

theorem seen_and_better_eq_false [DecidableEq S] {seen : Seen S} {s : S} {g : Nat}
    (h : seen_and_better seen s g = false) :
    lookupSeen seen s = none ∨ ∃ w, lookupSeen seen s = some w ∧ g < w.g := by
  rw [seen_and_better] at h
  cases hlk : lookupSeen seen s with
  | none => exact Or.inl rfl
  | some w =>
    right
    refine ⟨w, rfl, ?_⟩
    rw [hlk] at h
    simp only [decide_eq_false_iff_not] at h
    omega

theorem seen_and_better_of_le [DecidableEq S] {seen : Seen S} {s : S} {g : Nat}
    (w : Transition S) (hlk : lookupSeen seen s = some w) (hle : w.g ≤ g) :
    seen_and_better seen s g = true := by
  rw [seen_and_better, hlk]
  exact decide_eq_true hle

theorem blindChildren_nil (parent : Transition S) (idx : Nat) :
    blindChildren parent idx ([] : List S) = [] := rfl

theorem blindChildren_cons (parent : Transition S) (idx : Nat) (s : S) (rest : List S) :
    blindChildren parent idx (s :: rest) =
      Transition.successor s parent (idx + 1) 0 :: blindChildren parent (idx + 1) rest := rfl

theorem blindSeen_nil [DecidableEq S] (parent : Transition S) (idx : Nat) (seen : Seen S) :
    blindSeen parent idx seen ([] : List S) = seen := rfl

theorem blindSeen_cons [DecidableEq S] (parent : Transition S) (idx : Nat) (seen : Seen S)
    (s : S) (rest : List S) :
    blindSeen parent idx seen (s :: rest) =
      blindSeen parent (idx + 1)
        (insertSeen seen s (Transition.successor s parent (idx + 1) 0)) rest := rfl

theorem processSuccs_blind [DecidableEq S] (cfg : SearchConfig) (parent : Transition S) :
    ∀ (l : List S) (st : LoopState S (fifoOps (Transition S)).Q), st.best_h = 0 →
      (processSuccs (fifoOps (Transition S)) (blind_heuristic S) cfg parent l st).queue =
          List.append st.queue (blindChildren parent st.index l) ∧
        (processSuccs (fifoOps (Transition S)) (blind_heuristic S) cfg parent l st).seen =
          blindSeen parent st.index st.seen l ∧
        (processSuccs (fifoOps (Transition S)) (blind_heuristic S) cfg parent l st).best_h =
          0 := by
  intro l
  induction l with
  | nil =>
    intro st hb
    rw [processSuccs_nil, blindChildren_nil, blindSeen_nil]
    exact ⟨(List.append_nil _).symm, rfl, hb⟩
  | cons s rest ih =>
    intro st hb
    have hns : (decide (blind_heuristic S s < st.best_h) && cfg.ehc) = false := by
      rw [hb]
      rw [show blind_heuristic S s = 0 from rfl]
      rw [decide_eq_false (by omega)]
      rfl
    rw [processSuccs_cons_noskip (fifoOps (Transition S)) (blind_heuristic S) cfg parent
      s rest st hns]
    set st₁ : LoopState S (fifoOps (Transition S)).Q :=
      { queue := (fifoOps (Transition S)).enqueue
          (Transition.successor s parent (st.index + 1) (blind_heuristic S s)) st.queue,
        seen := insertSeen st.seen s
          (Transition.successor s parent (st.index + 1) (blind_heuristic S s)),
        statistics := ⟨st.statistics.created + 1, st.statistics.queued + 1,
          st.statistics.expanded⟩,
        index := st.index + 1,
        best_h := if blind_heuristic S s < st.best_h then blind_heuristic S s
          else st.best_h,
        trace := st.trace ++ [Event.ins s (parent.g + 1) (st.index + 1),
          Event.enq s (parent.g + 1) (st.index + 1)] } with hst₁
    have hb₁ : st₁.best_h = 0 := by
      show (if blind_heuristic S s < st.best_h then blind_heuristic S s else st.best_h) = 0
      rw [hb]
      rw [show blind_heuristic S s = 0 from rfl]
      simp
    obtain ⟨hq, hs, hbh⟩ := ih st₁ hb₁
    refine ⟨?_, ?_, hbh⟩
    · rw [hq, blindChildren_cons]
      show List.append
          (List.append st.queue [Transition.successor s parent (st.index + 1) 0])
          (blindChildren parent (st.index + 1) rest) =
        List.append st.queue
          (Transition.successor s parent (st.index + 1) 0 ::
            blindChildren parent (st.index + 1) rest)
      simp
    · rw [hs]
      show blindSeen parent (st.index + 1)
          (insertSeen st.seen s (Transition.successor s parent (st.index + 1) 0)) rest =
        blindSeen parent st.index st.seen (s :: rest)
      rw [blindSeen_cons]

theorem mem_blindChildren {parent : Transition S} :
    ∀ {l : List S} {idx : Nat} {u : Transition S}, u ∈ blindChildren parent idx l →
      ∃ s ∈ l, ∃ i, u = Transition.successor s parent i 0 := by
  intro l
  induction l with
  | nil => intro idx u hu; rw [blindChildren_nil] at hu; simp at hu
  | cons s rest ih =>
    intro idx u hu
    rw [blindChildren_cons] at hu
    rcases List.mem_cons.mp hu with hu | hu
    · exact ⟨s, List.mem_cons_self s rest, idx + 1, hu⟩
    · obtain ⟨s', hs', i, hi⟩ := ih hu
      exact ⟨s', List.mem_cons_of_mem s hs', i, hi⟩

theorem blindChildren_state {parent : Transition S} :
    ∀ {l : List S} {idx : Nat} {s : S}, s ∈ l →
      ∃ u ∈ blindChildren parent idx l, u.state = s := by
  intro l
  induction l with
  | nil => intro idx s hs; simp at hs
  | cons x rest ih =>
    intro idx s hs
    rw [blindChildren_cons]
    rcases List.mem_cons.mp hs with hs | hs
    · exact ⟨Transition.successor x parent (idx + 1) 0,
        List.mem_cons_self _ _, by rw [hs, Transition.state_successor]⟩
    · obtain ⟨u, hu, hus⟩ := ih hs
      exact ⟨u, List.mem_cons_of_mem _ hu, hus⟩

theorem lookup_blindSeen_not_mem [DecidableEq S] {parent : Transition S} :
    ∀ {l : List S} {idx : Nat} {seen : Seen S} {s : S}, s ∉ l →
      lookupSeen (blindSeen parent idx seen l) s = lookupSeen seen s := by
  intro l
  induction l with
  | nil => intro idx seen s _; rw [blindSeen_nil]
  | cons x rest ih =>
    intro idx seen s hs
    rw [blindSeen_cons]
    have hsx : s ≠ x := fun hc => hs (hc ▸ List.mem_cons_self x rest)
    have hsr : s ∉ rest := fun hc => hs (List.mem_cons_of_mem x hc)
    rw [ih hsr, lookupSeen_insert_ne _ _ _ _ hsx]

theorem lookup_blindSeen_mem [DecidableEq S] {parent : Transition S} :
    ∀ {l : List S} {idx : Nat} {seen : Seen S} {s : S}, s ∈ l →
      ∃ i, lookupSeen (blindSeen parent idx seen l) s =
        some (Transition.successor s parent i 0) := by
  intro l
  induction l with
  | nil => intro idx seen s hs; simp at hs
  | cons x rest ih =>
    intro idx seen s hs
    rw [blindSeen_cons]
    by_cases hsr : s ∈ rest
    · exact ih hsr
    · rcases List.mem_cons.mp hs with hsx | hsx
      · subst hsx
        refine ⟨idx + 1, ?_⟩
        rw [lookup_blindSeen_not_mem hsr, lookupSeen_insert, if_pos rfl]
      · exact absurd hsx hsr

theorem blindSeen_isSome [DecidableEq S] {parent : Transition S} {l : List S} {idx : Nat}
    {seen : Seen S} {s : S} (h : (lookupSeen seen s).isSome = true) :
    (lookupSeen (blindSeen parent idx seen l) s).isSome = true := by
  by_cases hs : s ∈ l
  · obtain ⟨i, hi⟩ := lookup_blindSeen_mem hs
    rw [hi]
    rfl
  · rw [lookup_blindSeen_not_mem hs]
    exact h

theorem seen_and_better_isSome [DecidableEq S] {seen : Seen S} {s : S} {g : Nat}
    (h : seen_and_better seen s g = true) : (lookupSeen seen s).isSome = true := by
  rw [seen_and_better] at h
  cases hlk : lookupSeen seen s with
  | none => rw [hlk] at h; exact absurd h (by simp)
  | some w => rfl

theorem reachN_zero_eq {succs : S → List S} {s0 s : S} (h : ReachN succs s0 0 s) : s = s0 := by
  cases h
  rfl

theorem head_g_min {q : List (Transition S)}
    (hs : List.Pairwise (fun a b => Transition.g a ≤ Transition.g b) q)
    {t : Transition S} (ht : t ∈ q) :
    ∃ f, q.head? = some f ∧ f.g ≤ t.g := by
  cases q with
  | nil => simp at ht
  | cons f rest =>
    refine ⟨f, rfl, ?_⟩
    rcases List.mem_cons.mp ht with h | h
    · rw [h]
    · exact (List.pairwise_cons.mp hs).1 t h

theorem bfs_frontier [DecidableEq S] {succs : S → List S} {goal : S → Bool} {s0 : S}
    {q : List (Transition S)} {seen : Seen S}
    (inv : BFSInv succs goal s0 q seen) :
    ∀ (m : Nat) (s : S), ReachN succs s0 m s →
      (lookupSeen seen s).isSome = true ∨ ∃ f, q.head? = some f ∧ f.g + 1 ≤ m := by
  intro m
  induction m with
  | zero =>
    intro s hr
    rw [reachN_zero_eq hr]
    exact Or.inl inv.initSeen
  | succ n ih =>
    intro s hr
    cases hr with
    | succ hy hmem =>
      rename_i y
      rcases ih y hy with hseen | ⟨f, hf, hfg⟩
      · cases hlk : lookupSeen seen y with
        | none => rw [hlk] at hseen; exact absurd hseen (by simp)
        | some w =>
          rcases inv.expandedSeen y w hlk with ⟨t, htq, hts⟩ | hall
          · obtain ⟨w', hw', hwg⟩ := inv.queueSeen t htq
            have hdist := (inv.seenDist t.state w' hw').2.2
            rw [hts] at hdist
            have hmin : w'.g ≤ n := hdist.2 n hy
            obtain ⟨f, hf, hfle⟩ := head_g_min inv.sorted htq
            exact Or.inr ⟨f, hf, by omega⟩
          · exact Or.inl (hall s hmem)
      · exact Or.inr ⟨f, hf, by omega⟩

theorem BFSInv_step [DecidableEq S] {succs : S → List S} {goal : S → Bool} {s0 : S}
    {t : Transition S} {q₂ : List (Transition S)} {seen : Seen S}
    (inv : BFSInv succs goal s0 (t :: q₂) seen) (hgoal : goal t.state = false) (idx : Nat) :
    BFSInv succs goal s0
      (q₂ ++ blindChildren t idx
        ((succs t.state).filter (fun s => !(seen_and_better seen s (t.g + 1)))))
      (blindSeen t idx seen
        ((succs t.state).filter (fun s => !(seen_and_better seen s (t.g + 1))))) := by
  set l := (succs t.state).filter (fun s => !(seen_and_better seen s (t.g + 1))) with hl
  have hmem_l : ∀ {s : S}, s ∈ l →
      s ∈ succs t.state ∧ seen_and_better seen s (t.g + 1) = false := by
    intro s hs
    rw [hl, List.mem_filter] at hs
    refine ⟨hs.1, ?_⟩
    cases hb : seen_and_better seen s (t.g + 1)
    · rfl
    · rw [hb] at hs
      exact absurd hs.2 (by simp)
  have htq : t ∈ t :: q₂ := List.mem_cons_self t q₂
  obtain ⟨wt, hwt, hwtg⟩ := inv.queueSeen t htq
  have htdist : IsDist succs s0 t.state t.g := by
    have h := (inv.seenDist t.state wt hwt).2.2
    rwa [hwtg] at h
  have hwf_t : WellFormed s0 succs t := inv.wfQ t htq
  have hchild : ∀ {u : Transition S}, u ∈ blindChildren t idx l →
      ∃ s ∈ l, u.state = s ∧ u.g = t.g + 1 ∧ ∃ i, u = Transition.successor s t i 0 := by
    intro u hu
    obtain ⟨s, hs, i, hi⟩ := mem_blindChildren hu
    exact ⟨s, hs, by rw [hi, Transition.state_successor],
      by rw [hi, Transition.g_successor], i, hi⟩
  have hchild_dist : ∀ {s : S}, s ∈ l → IsDist succs s0 s (t.g + 1) := by
    intro s hs
    refine ⟨ReachN.succ htdist.1 (hmem_l hs).1, ?_⟩
    intro m hm
    by_contra hlt
    push_neg at hlt
    rcases bfs_frontier inv m s hm with hseen | ⟨f, hf, hfg⟩
    · cases hlk : lookupSeen seen s with
      | none => rw [hlk] at hseen; exact absurd hseen (by simp)
      | some w =>
        have hdist := (inv.seenDist s w hlk).2.2
        have hwm : w.g ≤ m := hdist.2 m hm
        have hsab := seen_and_better_of_le w hlk (show w.g ≤ t.g + 1 by omega)
        rw [(hmem_l hs).2] at hsab
        exact Bool.false_ne_true hsab
    · simp only [List.head?_cons, Option.some.injEq] at hf
      rw [← hf] at hfg
      omega
  have hq₂_not_l : ∀ {u : Transition S}, u ∈ q₂ → u.state ∉ l := by
    intro u hu hul
    obtain ⟨w, hw, hwg⟩ := inv.queueSeen u (List.mem_cons_of_mem t hu)
    have h2 : u.g ≤ t.g + 1 := inv.twoLevel u (List.mem_cons_of_mem t hu) t htq
    have hsab := seen_and_better_of_le w hw (show w.g ≤ t.g + 1 by omega)
    rw [(hmem_l hul).2] at hsab
    exact Bool.false_ne_true hsab
  refine ⟨?_, ?_, ?_, ?_, ?_, ?_, ?_, ?_⟩
  · intro u hu
    rcases List.mem_append.mp hu with hu | hu
    · exact inv.wfQ u (List.mem_cons_of_mem t hu)
    · obtain ⟨s, hs, i, hi⟩ := mem_blindChildren hu
      rw [hi]
      exact show s ∈ succs t.state ∧ t.g + 1 = t.g + 1 ∧ WellFormed s0 succs t from
        ⟨(hmem_l hs).1, rfl, hwf_t⟩
  · intro s w hw
    by_cases hs : s ∈ l
    · obtain ⟨i, hi⟩ := lookup_blindSeen_mem hs
      rw [hi] at hw
      have hw' : Transition.successor s t i 0 = w := by injection hw
      rw [← hw']
      refine ⟨show s ∈ succs t.state ∧ t.g + 1 = t.g + 1 ∧ WellFormed s0 succs t from
          ⟨(hmem_l hs).1, rfl, hwf_t⟩, Transition.state_successor s t i 0, ?_⟩
      rw [Transition.g_successor]
      exact hchild_dist hs
    · rw [lookup_blindSeen_not_mem hs] at hw
      exact inv.seenDist s w hw
  · rw [List.pairwise_append]
    refine ⟨(List.pairwise_cons.mp inv.sorted).2, ?_, ?_⟩
    · refine List.pairwise_of_forall_mem_list ?_
      intro a ha b hb
      obtain ⟨_, _, _, hag, _, _⟩ := hchild ha
      obtain ⟨_, _, _, hbg, _, _⟩ := hchild hb
      omega
    · intro a ha b hb
      obtain ⟨_, _, _, hbg, _, _⟩ := hchild hb
      have := inv.twoLevel a (List.mem_cons_of_mem t ha) t htq
      omega
  · intro a ha b hb
    rcases List.mem_append.mp ha with ha | ha <;> rcases List.mem_append.mp hb with hb | hb
    · exact inv.twoLevel a (List.mem_cons_of_mem t ha) b (List.mem_cons_of_mem t hb)
    · obtain ⟨_, _, _, hbg, _, _⟩ := hchild hb
      have := inv.twoLevel a (List.mem_cons_of_mem t ha) t htq
      omega
    · obtain ⟨_, _, _, hag, _, _⟩ := hchild ha
      have := (List.pairwise_cons.mp inv.sorted).1 b hb
      omega
    · obtain ⟨_, _, _, hag, _, _⟩ := hchild ha
      obtain ⟨_, _, _, hbg, _, _⟩ := hchild hb
      omega
  · intro u hu
    rcases List.mem_append.mp hu with hu | hu
    · obtain ⟨w, hw, hwg⟩ := inv.queueSeen u (List.mem_cons_of_mem t hu)
      exact ⟨w, by rw [lookup_blindSeen_not_mem (hq₂_not_l hu)]; exact hw, hwg⟩
    · obtain ⟨s, hs, hst, hg, i, hi⟩ := hchild hu
      obtain ⟨i', hi'⟩ := lookup_blindSeen_mem hs
      refine ⟨Transition.successor s t i' 0, ?_, ?_⟩
      · rw [hst]
        exact hi'
      · rw [Transition.g_successor, hg]
  · intro s w hw
    by_cases hs : s ∈ l
    · obtain ⟨u, hu, hus⟩ := blindChildren_state hs
      exact Or.inl ⟨u, List.mem_append_right _ hu, hus⟩
    · rw [lookup_blindSeen_not_mem hs] at hw
      rcases inv.expandedSeen s w hw with ⟨u, hu, hus⟩ | hall
      · rcases List.mem_cons.mp hu with hu | hu
        · right
          rw [hu] at hus
          intro y hy
          by_cases hyl : y ∈ l
          · obtain ⟨i, hi⟩ := lookup_blindSeen_mem hyl
            rw [hi]
            rfl
          · cases hb : seen_and_better seen y (t.g + 1)
            · refine absurd ?_ hyl
              rw [hl, List.mem_filter]
              exact ⟨by rw [hus]; exact hy, by rw [hb]; rfl⟩
            · exact blindSeen_isSome (seen_and_better_isSome hb)
        · exact Or.inl ⟨u, List.mem_append_left _ hu, hus⟩
      · right
        intro y hy
        exact blindSeen_isSome (hall y hy)
  · intro s w hw hgs
    by_cases hs : s ∈ l
    · obtain ⟨u, hu, hus⟩ := blindChildren_state hs
      exact ⟨u, List.mem_append_right _ hu, hus⟩
    · rw [lookup_blindSeen_not_mem hs] at hw
      obtain ⟨u, hu, hus⟩ := inv.goalQueued s w hw hgs
      rcases List.mem_cons.mp hu with hu | hu
      · rw [hu] at hus
        rw [hus] at hgoal
        rw [hgs] at hgoal
        exact absurd hgoal (by simp)
      · exact ⟨u, List.mem_append_left _ hu, hus⟩
  · exact blindSeen_isSome inv.initSeen

theorem fifo_dequeue_eq {α : Type} {q : List α} {a : α} {q' : List α}
    (hd : (fifoOps α).dequeue q = some (a, q')) : q = a :: q' := by
  cases q with
  | nil => exact absurd hd (by simp [fifoOps])
  | cons x xs =>
    have h : some (x, xs) = some (a, q') := hd
    simp only [Option.some.injEq, Prod.mk.injEq] at h
    rw [h.1, h.2]

theorem BFSInv_init [DecidableEq S] (succs : S → List S) (goal : S → Bool) (s0 : S)
    (h0 : Int) :
    BFSInv succs goal s0 [Transition.initial s0 h0]
      (insertSeen ([] : Seen S) s0 (Transition.initial s0 h0)) := by
  have hlk0 : lookupSeen (insertSeen ([] : Seen S) s0 (Transition.initial s0 h0)) s0 =
      some (Transition.initial s0 h0) := by
    rw [lookupSeen_insert, if_pos rfl]
  refine ⟨?_, ?_, ?_, ?_, ?_, ?_, ?_, ?_⟩
  · intro t ht
    rw [List.mem_singleton] at ht
    rw [ht]
    exact rfl
  · intro s w hw
    rw [lookupSeen_insert] at hw
    by_cases hs : s = s0
    · rw [if_pos hs] at hw
      have hw' : Transition.initial s0 h0 = w := by injection hw
      subst hs
      rw [← hw']
      exact ⟨rfl, rfl, ReachN.zero, fun m _ => Nat.zero_le m⟩
    · rw [if_neg hs] at hw
      exact absurd hw (by simp [lookupSeen])
  · exact List.pairwise_singleton _ _
  · intro a ha b hb
    rw [List.mem_singleton] at ha hb
    rw [ha, hb]
    exact Nat.le_succ _
  · intro t ht
    rw [List.mem_singleton] at ht
    subst ht
    exact ⟨Transition.initial s0 h0, hlk0, rfl⟩
  · intro s w hw
    rw [lookupSeen_insert] at hw
    by_cases hs : s = s0
    · subst hs
      exact Or.inl ⟨Transition.initial s h0, List.mem_singleton_self _, rfl⟩
    · rw [if_neg hs] at hw
      exact absurd hw (by simp [lookupSeen])
  · intro s w hw _
    rw [lookupSeen_insert] at hw
    by_cases hs : s = s0
    · subst hs
      exact ⟨Transition.initial s h0, List.mem_singleton_self _, rfl⟩
    · rw [if_neg hs] at hw
      exact absurd hw (by simp [lookupSeen])
  · rw [hlk0]
    rfl

theorem bfs_searchAux_optimal [DecidableEq S] {succs : S → List S} {goal : S → Bool}
    {s0 : S} :
    ∀ (fuel : Nat) (st : LoopState S (fifoOps (Transition S)).Q) (r : SearchResult S)
      (tr : List (Event S)) (p : List S),
      searchAux (fifoOps (Transition S)) succs (blind_heuristic S) goal SearchConfig.blind
          fuel st = some (r, tr) →
      BFSInv succs goal s0 st.queue st.seen →
      st.best_h = 0 →
      r.plan = some p →
      ∀ (m : Nat) (z : S), ReachN succs s0 m z → goal z = true → p.length ≤ m + 1 := by
  intro fuel
  induction fuel with
  | zero =>
    intro st r tr p hres
    rw [searchAux_zero] at hres
    exact absurd hres (by simp)
  | succ n ih =>
    intro st r tr p hres hinv hbh hplan m z hz hgz
    cases hd : (fifoOps (Transition S)).dequeue st.queue with
    | none =>
      rw [searchAux_dequeue_none _ succs _ goal _ n st hd] at hres
      simp only [Option.some.injEq, Prod.mk.injEq] at hres
      rw [← hres.1] at hplan
      simp at hplan
    | some tq =>
      rcases tq with ⟨t, q₂⟩
      have hqeq : st.queue = t :: q₂ := fifo_dequeue_eq hd
      have hinv' : BFSInv succs goal s0 (t :: q₂) st.seen := by
        rw [hqeq] at hinv
        exact hinv
      by_cases hg : goal t.state = true
      · rw [searchAux_dequeue_goal _ succs _ goal _ n st t q₂ hd hg] at hres
        simp only [Option.some.injEq, Prod.mk.injEq] at hres
        rw [← hres.1] at hplan
        simp only [Option.some.injEq] at hplan
        have hwf := hinv'.wfQ t (List.mem_cons_self t q₂)
        have hlen : p.length = t.g + 1 := by
          rw [← hplan]
          exact extract_plan_length t hwf
        rcases bfs_frontier hinv' m z hz with hseen | ⟨f, hf, hfg⟩
        · cases hlk : lookupSeen st.seen z with
          | none => rw [hlk] at hseen; exact absurd hseen (by simp)
          | some w =>
            obtain ⟨u, hu, huz⟩ := hinv'.goalQueued z w hlk hgz
            obtain ⟨w', hw', hwg⟩ := hinv'.queueSeen u hu
            have hdist := (hinv'.seenDist u.state w' hw').2.2
            rw [huz] at hdist
            have hle : w'.g ≤ m := hdist.2 m hz
            obtain ⟨f, hf, hfle⟩ := head_g_min hinv'.sorted hu
            simp only [List.head?_cons, Option.some.injEq] at hf
            rw [← hf] at hfle
            omega
        · simp only [List.head?_cons, Option.some.injEq] at hf
          rw [← hf] at hfg
          omega
      · have hgf : goal t.state = false := by
          cases hgoal' : goal t.state
          · rfl
          · exact absurd hgoal' hg
        rw [searchAux_dequeue_expand _ succs _ goal _ n st t q₂ hd hgf] at hres
        have hstep_eq : stepState (fifoOps (Transition S)) succs (blind_heuristic S)
            SearchConfig.blind st t q₂ =
          processSuccs (fifoOps (Transition S)) (blind_heuristic S) SearchConfig.blind t
            ((succs t.state).filter (fun s => !(seen_and_better st.seen s (t.g + 1))))
            ⟨q₂, st.seen, ⟨st.statistics.created, st.statistics.queued,
              st.statistics.expanded + 1⟩, st.index, st.best_h, st.trace⟩ := rfl
        rw [hstep_eq] at hres
        obtain ⟨hq', hs', hb'⟩ := processSuccs_blind SearchConfig.blind t
          ((succs t.state).filter (fun s => !(seen_and_better st.seen s (t.g + 1))))
          ⟨q₂, st.seen, ⟨st.statistics.created, st.statistics.queued,
            st.statistics.expanded + 1⟩, st.index, st.best_h, st.trace⟩ hbh
        refine ih _ r tr p hres ?_ hb' hplan m z hz hgz
        rw [hq', hs']
        exact BFSInv_step hinv' hgf st.index

theorem chain_reachN {succs : S → List S} {s0 : S} :
    ∀ (q : List S) (z : S), q.head? = some s0 →
      List.Chain' (fun a b => b ∈ succs a) q → q.getLast? = some z →
      ReachN succs s0 (q.length - 1) z := by
  intro q
  induction q using List.reverseRecOn with
  | nil => intro z _ _ h; exact absurd h (by simp)
  | append_singleton xs x ih =>
    intro z hh hc hl
    rw [List.getLast?_concat] at hl
    have hxz : x = z := by injection hl
    subst hxz
    cases xs with
    | nil =>
      simp only [List.nil_append, List.head?_cons, Option.some.injEq] at hh
      rw [hh]
      exact ReachN.zero
    | cons a ts =>
      have hh' : (a :: ts).head? = some s0 := hh
      rw [List.chain'_append] at hc
      obtain ⟨hc1, -, hcross⟩ := hc
      have hy : (a :: ts).getLast? = some ((a :: ts).getLast (by simp)) :=
        List.getLast?_eq_getLast _ _
      have hmem : x ∈ succs ((a :: ts).getLast (by simp)) := by
        refine hcross _ ?_ x ?_
        · rw [Option.mem_def]
          exact hy
        · rw [Option.mem_def]
          rfl
      have h' := ReachN.succ (ih ((a :: ts).getLast (by simp)) hh' hc1 hy) hmem
      have hlen : ((a :: ts) ++ [x]).length - 1 = (a :: ts).length - 1 + 1 := by
        simp
      rw [hlen]
      exact h'

/-- C2: whenever `breadth_first_search` returns a plan, the length of that
plan is minimal among all sequences of successor steps leading from the
initial state to any state satisfying the goal predicate (a competing
sequence is a nonempty list starting at the initial state, chained by the
successor relation, ending at a goal state). -/
theorem spec_C2_bfs_optimal [DecidableEq S] (succs : S → List S) (goal : S → Bool)
    (fuel : Nat) (s0 : S) (r : SearchResult S) (tr : List (Event S)) (p : List S)
    (hres : breadth_first_search succs goal fuel s0 = some (r, tr))
    (hplan : r.plan = some p) :
    ∀ (q : List S), q.head? = some s0 → List.Chain' (fun a b => b ∈ succs a) q →
      (∃ z, q.getLast? = some z ∧ goal z = true) → p.length ≤ q.length := by
  rintro q hh hc ⟨z, hl, hgz⟩
  have hz : ReachN succs s0 (q.length - 1) z := chain_reachN q z hh hc hl
  have hqlen : 1 ≤ q.length := by
    cases q with
    | nil => exact absurd hh (by simp)
    | cons a t => simp
  have hres' : searchAux (fifoOps (Transition S)) succs (blind_heuristic S) goal
      SearchConfig.blind fuel
      ⟨(fifoOps (Transition S)).enqueue (Transition.initial s0 (blind_heuristic S s0))
          (fifoOps (Transition S)).empty,
        insertSeen ([] : Seen S) s0 (Transition.initial s0 (blind_heuristic S s0)),
        ⟨1, 1, 0⟩, 0, blind_heuristic S s0,
        [Event.ins s0 0 0, Event.enq s0 0 0]⟩ = some (r, tr) := hres
  have hinv : BFSInv succs goal s0
      ((fifoOps (Transition S)).enqueue (Transition.initial s0 (blind_heuristic S s0))
        (fifoOps (Transition S)).empty)
      (insertSeen ([] : Seen S) s0 (Transition.initial s0 (blind_heuristic S s0))) :=
    BFSInv_init succs goal s0 (blind_heuristic S s0)
  have hmain := bfs_searchAux_optimal fuel
    ⟨(fifoOps (Transition S)).enqueue (Transition.initial s0 (blind_heuristic S s0))
        (fifoOps (Transition S)).empty,
      insertSeen ([] : Seen S) s0 (Transition.initial s0 (blind_heuristic S s0)),
      ⟨1, 1, 0⟩, 0, blind_heuristic S s0,
      [Event.ins s0 0 0, Event.enq s0 0 0]⟩ r tr p hres' hinv rfl hplan
    (q.length - 1) z hz hgz
  omega

theorem spec_C2_bfs_optimal_witness : ([0, 2, 5] : List Nat).length ≤
    ([0, 2, 5] : List Nat).length := by
  refine spec_C2_bfs_optimal succsTriple goalFive 10 0 ?r ?tr [0, 2, 5] ?hres ?hplan
    [0, 2, 5] ?hh ?hc ?hgoal
  case r => exact ({ plan := some [0, 2, 5], statistics := ⟨8, 8, 5⟩ } : SearchResult Nat)
  case tr => exact (breadth_first_search succsTriple goalFive 10 0).elim [] Prod.snd
  case hres => decide
  case hplan => decide
  case hh => decide
  case hc =>
    rw [List.chain'_cons, List.chain'_cons]
    exact ⟨by decide, by decide, List.chain'_singleton _⟩
  case hgoal => exact ⟨5, by decide, by decide⟩

end Tiles